import Mathlib

/-!
# LexMap core engine: shallow embedding and verification

This file embeds the core of the LexMap repository in Lean 4 and proves the
frozen specification claims about it.  The embedded components are:

* the content-addressed frame store (`packages/codemap-indexer/src/frames.ts`):
  `computeFrameId`, `splitArray`, `chunkData`, `buildFrames`;
* the determinism accountant (`packages/codemap-indexer/src/commands/index.ts`):
  the determinism-ratio computation and the escalation signal;
* the adjacency builder and neighborhood extractor
  (`packages/codemap-indexer/src/neighborhood.ts`): `buildAdjacencyGraph`,
  `extractNeighborhood`;
* the flat-edge-list BFS of `commands/atlas-frame.ts`: `buildModuleNeighborhood`;
* the policy conformance checker of spec §4.5 (modelled from the spec; the
  repository sources only contain placeholders for it).

External collaborators (the zstd/gzip codec, sha256, JSON stringification of
opaque values) are treated as opaque functions, exactly as the specification
prescribes ("treated as opaque `encode(bytes)->bytes` functions"): the frame
definitions are parameterised over a `Codec` record carrying those functions
together with the item-size measure `JSON.stringify(item).length` used by the
chunker.  JavaScript `Map`s and `Set`s are modelled as association lists /
lists with insertion-order semantics, which matches JS iteration order.
-/

namespace LexMap

/-! ## Data model (`types.ts`) -/

/-- `Scope` from `types.ts` (the optional `path`/`symbol` fields are kept). -/
structure Scope where
  repo : String
  commit : String
  path : Option String := none
  symbol : Option String := none
deriving DecidableEq

/-- Call-resolution kind from `types.ts`: `kind: 'direct' | 'heuristic'`. -/
inductive CallKind where
  | direct
  | heuristic
deriving DecidableEq

/-- Call site `{file, line, col}` from `types.ts`. -/
structure CallSite where
  file : String
  line : Nat
  col : Nat
deriving DecidableEq

/-- `Call` from `types.ts`.  `confidence` is an optional number; numbers are
modelled as rationals. -/
structure Call where
  from_ : String
  to_ : String
  site : CallSite
  kind : CallKind
  confidence : Option ℚ := none
deriving DecidableEq

/-- `Module` (a module-dependency edge) from `types.ts`. -/
structure Module where
  from_ : String
  to_ : String
  weight : Nat
deriving DecidableEq

/-! ## Determinism accountant (`commands/index.ts`, lines 134-145)

```js
const staticCalls = fullGraph.calls.filter(c => c.kind === 'direct').length;
const totalCalls = fullGraph.calls.length;
const detRatio = totalCalls > 0 ? staticCalls / totalCalls : 1.0;
...
if (detRatio < targetRatio && options.heuristics !== 'off') { ...signal... }
```

JS numbers are modelled as rationals (the division is exact for the ranges
the claims speak about). -/

/-- Count of statically resolved calls: `calls.filter(c => c.kind === 'direct').length`. -/
def staticCalls (calls : List Call) : Nat :=
  (calls.filter (fun c => c.kind = CallKind.direct)).length

/-- The determinism ratio computed by `indexCommand`:
`totalCalls > 0 ? staticCalls / totalCalls : 1.0`. -/
def detRatio (calls : List Call) : ℚ :=
  if 0 < calls.length then (staticCalls calls : ℚ) / (calls.length : ℚ) else 1

/-- The escalation condition of `indexCommand` (lines 141-145):
`detRatio < targetRatio && options.heuristics !== 'off'`. -/
def escalationSignal (calls : List Call) (targetRatio : ℚ) (heuristics : String) : Bool :=
  decide (detRatio calls < targetRatio) && heuristics != "off"

/-! ## Content-addressed frame store (`frames.ts`)

The payload handed to `buildFrames` is either a JSON array (split element-wise)
or a JSON object (split key-wise); its elements are opaque JSON values of some
type `α`.  The external codec (`toB64` = stable-stringify + compression +
base64), the `sha256` hash, the stable stringification of the scope and the
`JSON.stringify(x).length` size measures are opaque deterministic functions
and are collected in a `Codec` record. -/

/-- A payload as seen by `buildFrames`/`chunkData`: `Array.isArray(data)`
distinguishes the two branches.  Object fields are an insertion-ordered
association list, matching `Object.keys` iteration order. -/
inductive Payload (α : Type) where
  | arr (items : List α)
  | obj (fields : List (String × α))

/-- The opaque external functions used by `frames.ts` (spec §1: codecs are
"treated as opaque `encode(bytes)->bytes` / `decode(bytes)->bytes` functions").

* `sha256`, `stringifyScope` — `sha256` and `stableStringify` from `hash.ts`;
* `encPayload` — `toB64(data)` on the whole payload;
* `encItems` — `toB64({ items: chunk })` on one array chunk;
* `encObj` — `toB64(chunk)` on one object chunk;
* `b64Len` — `Buffer.from(b64, 'base64').length`;
* `itemSize` — `JSON.stringify(item).length` for an array element;
* `fieldSize` — `JSON.stringify({ [key]: data[key] }).length` for one key. -/
structure Codec (α : Type) where
  sha256 : String → String
  stringifyScope : Scope → String
  encPayload : Payload α → String
  encItems : List α → String
  encObj : List (String × α) → String
  b64Len : String → Nat
  itemSize : α → Nat
  fieldSize : String → α → Nat

/-- `MAX_PAYLOAD_KB = 200` (`frames.ts` line 5). -/
def MAX_PAYLOAD_KB : Nat := 200

/-- `MAX_PAYLOAD_BYTES = MAX_PAYLOAD_KB * 1024` (`frames.ts` line 6). -/
def MAX_PAYLOAD_BYTES : Nat := MAX_PAYLOAD_KB * 1024

/-- `FrameMeta` from `types.ts` (payload already base64-encoded;
`ttl_seconds` is never set by `frames.ts` and is omitted).  `stats` is kept
opaque: only presence/absence matters to the embedded code. -/
structure FrameMeta where
  frame_id : String
  kind : String
  scope : Scope
  inputs_hash : String
  payload_b64 : String
  part : Option Nat := none
  total_parts : Option Nat := none
  ts : String
  stats : Option (List (String × Nat)) := none

/-- `computeFrameId` (`frames.ts` lines 158-177): joins
`kind`, `stableStringify(scope)`, `inputsHash`, `blobHash` and (when present)
the chunk index with `'|'` and hashes the result. -/
def computeFrameId {α : Type} (c : Codec α) (kind : String) (scope : Scope)
    (inputsHash blobHash : String) (part : Option Nat) : String :=
  let parts := [kind, c.stringifyScope scope, inputsHash, blobHash]
  let parts := match part with
    | some p => parts ++ [toString p]
    | none => parts
  c.sha256 (String.intercalate "|" parts)

/-- Loop body of `splitArray` (`frames.ts` lines 135-146): `current` is the
chunk being filled, `currentSize` the running sum of the items'
`JSON.stringify` lengths. -/
def splitArrayGo {α : Type} (c : Codec α) :
    List α → List α → Nat → List (List α)
  | [], current, _ =>
    if current.isEmpty then [] else [current]
  | item :: rest, current, currentSize =>
    let itemSize := c.itemSize item
    if currentSize + itemSize > MAX_PAYLOAD_BYTES && !current.isEmpty then
      current :: splitArrayGo c rest [item] itemSize
    else
      splitArrayGo c rest (current ++ [item]) (currentSize + itemSize)

/-- `splitArray` (`frames.ts` lines 130-153): greedily packs consecutive array
elements into chunks while the running size stays within
`MAX_PAYLOAD_BYTES`. -/
def splitArray {α : Type} (c : Codec α) (arr : List α) : List (List α) :=
  splitArrayGo c arr [] 0

/-- Loop body of the object branch of `chunkData` (`frames.ts` lines 87-103):
the same greedy packing, key-wise. -/
def splitObjGo {α : Type} (c : Codec α) :
    List (String × α) → List (String × α) → Nat → List (List (String × α))
  | [], current, _ =>
    if current.isEmpty then [] else [current]
  | kv :: rest, current, currentSize =>
    let itemSize := c.fieldSize kv.1 kv.2
    if currentSize + itemSize > MAX_PAYLOAD_BYTES && !current.isEmpty then
      current :: splitObjGo c rest [kv] itemSize
    else
      splitObjGo c rest (current ++ [kv]) (currentSize + itemSize)

/-- Build the frame for the `i`-th chunk (`frames.ts` lines 62-79 and 105-121):
`part` is `i + 1`, `total_parts` the chunk count, `stats` only on part 0. -/
def chunkFrame {α : Type} (c : Codec α) (kind : String) (scope : Scope)
    (inputsHash : String) (stats : Option (List (String × Nat))) (ts : String)
    (total : Nat) (i : Nat) (payloadB64 : String) : FrameMeta :=
  let blobHash := c.sha256 payloadB64
  let frameId := computeFrameId c kind scope inputsHash blobHash (some i)
  { frame_id := frameId
    kind := kind
    scope := scope
    inputs_hash := inputsHash
    payload_b64 := payloadB64
    part := some (i + 1)
    total_parts := some total
    ts := ts
    stats := if i = 0 then stats else none }

/-- `chunkData` (`frames.ts` lines 49-125): arrays are split element-wise and
each chunk re-encoded as `{ items: chunk }`; objects are split key-wise.
`ts` is the wall-clock timestamp `new Date().toISOString()`. -/
def chunkData {α : Type} (c : Codec α) (kind : String) (scope : Scope)
    (inputsHash : String) (data : Payload α)
    (stats : Option (List (String × Nat))) (ts : String) : List FrameMeta :=
  match data with
  | Payload.arr items =>
    let chunks := splitArray c items
    chunks.enum.map (fun ic =>
      chunkFrame c kind scope inputsHash stats ts chunks.length ic.1 (c.encItems ic.2))
  | Payload.obj fields =>
    let chunks := splitObjGo c fields [] 0
    chunks.enum.map (fun ic =>
      chunkFrame c kind scope inputsHash stats ts chunks.length ic.1 (c.encObj ic.2))

/-- `buildFrames` (`frames.ts` lines 16-44): if the encoded payload fits in
`MAX_PAYLOAD_BYTES` it becomes a single frame (no `part`/`total_parts`),
otherwise the pre-encoded payload is chunked.  `ts` is the wall-clock
timestamp. -/
def buildFrames {α : Type} (c : Codec α) (kind : String) (scope : Scope)
    (inputsHash : String) (data : Payload α)
    (stats : Option (List (String × Nat))) (ts : String) : List FrameMeta :=
  let payloadB64 := c.encPayload data
  let payloadSize := c.b64Len payloadB64
  if payloadSize ≤ MAX_PAYLOAD_BYTES then
    let blobHash := c.sha256 payloadB64
    let frameId := computeFrameId c kind scope inputsHash blobHash none
    [{ frame_id := frameId
       kind := kind
       scope := scope
       inputs_hash := inputsHash
       payload_b64 := payloadB64
       ts := ts
       stats := stats }]
  else
    chunkData c kind scope inputsHash data stats ts

/-! ### Structural reformulation of the greedy chunker

`splitArrayGo` threads an accumulator; for the proofs we restate it as
"take the longest prefix that still fits, then recurse", and prove the two
forms equal. -/

/-- Take elements while the running size (starting from `acc`) stays within
`MAX_PAYLOAD_BYTES`; returns the taken prefix and the remainder. -/
def greedyTake {α : Type} (c : Codec α) : List α → Nat → List α × List α
  | [], _ => ([], [])
  | item :: rest, acc =>
    if acc + c.itemSize item > MAX_PAYLOAD_BYTES then ([], item :: rest)
    else
      ((item :: (greedyTake c rest (acc + c.itemSize item)).1),
        (greedyTake c rest (acc + c.itemSize item)).2)

theorem greedyTake_append {α : Type} (c : Codec α) :
    ∀ (xs : List α) (acc : Nat),
      (greedyTake c xs acc).1 ++ (greedyTake c xs acc).2 = xs := by
  intro xs
  induction xs with
  | nil => intro acc; simp [greedyTake]
  | cons item rest ih =>
    intro acc
    by_cases h : acc + c.itemSize item > MAX_PAYLOAD_BYTES
    · simp [greedyTake, h]
    · simp [greedyTake, h, ih]

theorem greedyTake_rem_length {α : Type} (c : Codec α) :
    ∀ (xs : List α) (acc : Nat), (greedyTake c xs acc).2.length ≤ xs.length := by
  intro xs
  induction xs with
  | nil => intro acc; simp [greedyTake]
  | cons item rest ih =>
    intro acc
    by_cases h : acc + c.itemSize item > MAX_PAYLOAD_BYTES
    · simp [greedyTake, h]
    · simp only [greedyTake, if_neg h]
      exact le_trans (ih _) (Nat.le_succ _)

/-- Structural form of `splitArray`: emit the maximal fitting prefix (the
first element is always taken) and recurse on the rest. -/
def splitArraySpec {α : Type} (c : Codec α) : List α → List (List α)
  | [] => []
  | x :: xs =>
    (x :: (greedyTake c xs (c.itemSize x)).1) ::
      splitArraySpec c (greedyTake c xs (c.itemSize x)).2
termination_by l => l.length
decreasing_by
  simpa using Nat.lt_succ_of_le (greedyTake_rem_length c xs (c.itemSize x))

theorem splitArrayGo_eq_spec {α : Type} (c : Codec α) :
    ∀ (arr current : List α) (currentSize : Nat), current ≠ [] →
      splitArrayGo c arr current currentSize =
        (current ++ (greedyTake c arr currentSize).1) ::
          splitArraySpec c (greedyTake c arr currentSize).2 := by
  intro arr
  induction arr with
  | nil =>
    intro current currentSize h
    simp [splitArrayGo, greedyTake, splitArraySpec, h]
  | cons item rest ih =>
    intro current currentSize h
    have hne : current.isEmpty = false := by
      simpa [List.isEmpty_iff] using h
    by_cases hfit : currentSize + c.itemSize item > MAX_PAYLOAD_BYTES
    · have hstep : splitArrayGo c (item :: rest) current currentSize =
          current :: splitArrayGo c rest [item] (c.itemSize item) := by
        simp [splitArrayGo, hfit, hne]
      have hg : greedyTake c (item :: rest) currentSize = ([], item :: rest) := by
        simp [greedyTake, hfit]
      rw [hstep, ih [item] (c.itemSize item) (by simp), hg]
      simp [splitArraySpec]
    · have hstep : splitArrayGo c (item :: rest) current currentSize =
          splitArrayGo c rest (current ++ [item]) (currentSize + c.itemSize item) := by
        simp [splitArrayGo, hfit]
      have hg : greedyTake c (item :: rest) currentSize =
          (item :: (greedyTake c rest (currentSize + c.itemSize item)).1,
            (greedyTake c rest (currentSize + c.itemSize item)).2) := by
        simp [greedyTake, hfit]
      rw [hstep, ih (current ++ [item]) (currentSize + c.itemSize item) (by simp), hg]
      simp

theorem splitArray_eq_spec {α : Type} (c : Codec α) (arr : List α) :
    splitArray c arr = splitArraySpec c arr := by
  cases arr with
  | nil => simp [splitArray, splitArrayGo, splitArraySpec]
  | cons x xs =>
    have hstep : splitArrayGo c (x :: xs) [] 0 =
        splitArrayGo c xs [x] (c.itemSize x) := by
      simp [splitArrayGo]
    show splitArrayGo c (x :: xs) [] 0 = _
    rw [hstep, splitArrayGo_eq_spec c xs [x] (c.itemSize x) (by simp)]
    simp [splitArraySpec]

/-- The size of a chunk as measured by the chunker: the sum of the elements'
`JSON.stringify` lengths (`currentSize` in `splitArray`). -/
def chunkWeight {α : Type} (c : Codec α) (ch : List α) : Nat :=
  (ch.map c.itemSize).sum

theorem chunkWeight_append {α : Type} (c : Codec α) (l₁ l₂ : List α) :
    chunkWeight c (l₁ ++ l₂) = chunkWeight c l₁ + chunkWeight c l₂ := by
  simp [chunkWeight]

theorem splitArraySpec_join {α : Type} (c : Codec α) :
    ∀ (n : Nat) (arr : List α), arr.length ≤ n →
      (splitArraySpec c arr).flatten = arr := by
  intro n
  induction n with
  | zero =>
    intro arr h
    have harr : arr = [] := List.length_eq_zero.mp (Nat.le_zero.mp h)
    subst harr
    simp [splitArraySpec]
  | succ n ih =>
    intro arr h
    match arr with
    | [] => simp [splitArraySpec]
    | x :: xs =>
      have hrem : (greedyTake c xs (c.itemSize x)).2.length ≤ n :=
        le_trans (greedyTake_rem_length c xs (c.itemSize x))
          (Nat.le_of_succ_le_succ h)
      simp only [splitArraySpec, List.flatten_cons]
      rw [ih _ hrem]
      simp [greedyTake_append]

/-- While the accumulated size stays within the bound, `greedyTake` keeps it
within the bound. -/
theorem greedyTake_weight {α : Type} (c : Codec α) :
    ∀ (xs : List α) (acc : Nat), acc ≤ MAX_PAYLOAD_BYTES →
      acc + chunkWeight c (greedyTake c xs acc).1 ≤ MAX_PAYLOAD_BYTES := by
  intro xs
  induction xs with
  | nil => intro acc h; simpa [greedyTake, chunkWeight] using h
  | cons item rest ih =>
    intro acc h
    by_cases hfit : acc + c.itemSize item > MAX_PAYLOAD_BYTES
    · simpa [greedyTake, hfit, chunkWeight] using h
    · have := ih (acc + c.itemSize item) (Nat.le_of_not_lt hfit)
      simp only [greedyTake, if_neg hfit]
      simp only [chunkWeight, List.map_cons, List.sum_cons] at this ⊢
      omega

/-- If the head element is already oversized, `greedyTake` takes nothing. -/
theorem greedyTake_oversized {α : Type} (c : Codec α) (xs : List α) (acc : Nat)
    (h : MAX_PAYLOAD_BYTES < acc) : greedyTake c xs acc = ([], xs) := by
  cases xs with
  | nil => simp [greedyTake]
  | cons y ys =>
    have : acc + c.itemSize y > MAX_PAYLOAD_BYTES := by omega
    simp [greedyTake, this]

/-- Every chunk `splitArraySpec` emits is nonempty and either fits in
`MAX_PAYLOAD_BYTES` or is a single oversized element. -/
theorem splitArraySpec_chunks_ok {α : Type} (c : Codec α) :
    ∀ (n : Nat) (arr : List α), arr.length ≤ n →
      ∀ ch ∈ splitArraySpec c arr,
        ch ≠ [] ∧ (chunkWeight c ch ≤ MAX_PAYLOAD_BYTES ∨ ch.length = 1) := by
  intro n
  induction n with
  | zero =>
    intro arr h
    have harr : arr = [] := List.length_eq_zero.mp (Nat.le_zero.mp h)
    subst harr
    simp [splitArraySpec]
  | succ n ih =>
    intro arr h ch hch
    match arr with
    | [] => simp [splitArraySpec] at hch
    | x :: xs =>
      simp only [splitArraySpec, List.mem_cons] at hch
      rcases hch with hch | hch
      · subst hch
        refine ⟨by simp, ?_⟩
        by_cases hx : c.itemSize x ≤ MAX_PAYLOAD_BYTES
        · left
          have := greedyTake_weight c xs (c.itemSize x) hx
          simpa [chunkWeight] using this
        · right
          rw [greedyTake_oversized c xs (c.itemSize x) (Nat.lt_of_not_le hx)]
          simp
      · exact ih _ (le_trans (greedyTake_rem_length c xs (c.itemSize x))
          (Nat.le_of_succ_le_succ h)) ch hch

/-- `greedyTake` takes at least as many elements as any prefix that fits. -/
theorem greedyTake_ge_fitting {α : Type} (c : Codec α) :
    ∀ (p t : List α) (acc : Nat),
      acc + chunkWeight c p ≤ MAX_PAYLOAD_BYTES →
      p.length ≤ (greedyTake c (p ++ t) acc).1.length := by
  intro p
  induction p with
  | nil => intro t acc _; simp
  | cons y q ih =>
    intro t acc h
    simp only [chunkWeight, List.map_cons, List.sum_cons] at h
    have hfit : ¬ acc + c.itemSize y > MAX_PAYLOAD_BYTES := by omega
    simp only [List.cons_append, greedyTake, if_neg hfit, List.length_cons]
    have := ih t (acc + c.itemSize y) (by simp only [chunkWeight] at *; omega)
    simp only [List.append_eq] at this ⊢
    omega

/-- A legal chunk of a partition: nonempty, and either it fits in the byte
bound or it is a single (possibly oversized) element. -/
def chunkOk {α : Type} (c : Codec α) (ch : List α) : Prop :=
  ch ≠ [] ∧ (chunkWeight c ch ≤ MAX_PAYLOAD_BYTES ∨ ch.length = 1)

instance {α : Type} (c : Codec α) (ch : List α) : Decidable (chunkOk c ch) :=
  match ch with
  | [] => isFalse (fun h => h.1 rfl)
  | x :: xs =>
    decidable_of_iff
      (chunkWeight c (x :: xs) ≤ MAX_PAYLOAD_BYTES ∨ (x :: xs).length = 1)
      (by simp [chunkOk])

/-- Greedy suffix counting: the greedy split of any suffix of the material
covered by a legal partition `P` uses at most `P.length` chunks. -/
theorem splitArraySpec_le_partition {α : Type} (c : Codec α) :
    ∀ (P : List (List α)), (∀ ch ∈ P, chunkOk c ch) →
      ∀ (s t : List α), t ++ s = P.flatten →
        (splitArraySpec c s).length ≤ P.length := by
  intro P
  induction P with
  | nil =>
    intro _ s t hjoin
    have hs : s = [] := by
      have := congrArg List.length hjoin
      simp at this
      exact this.2
    subst hs
    simp [splitArraySpec]
  | cons p₁ P' ihP =>
    intro hOk s t hjoin
    have hOk₁ : chunkOk c p₁ := hOk p₁ (by simp)
    have hOk' : ∀ ch ∈ P', chunkOk c ch := fun ch hch => hOk ch (by simp [hch])
    have hs : s = p₁.drop t.length ++ P'.flatten.drop (t.length - p₁.length) := by
      have h1 : s = (t ++ s).drop t.length := by simp
      rw [h1, hjoin, List.flatten_cons, List.drop_append_eq_append_drop]
    by_cases hnil : p₁.drop t.length = []
    · -- `s` is a suffix of `P'.flatten`
      rw [hnil, List.nil_append] at hs
      have : P'.flatten.take (t.length - p₁.length) ++ s = P'.flatten := by
        rw [hs]; exact List.take_append_drop _ _
      exact le_trans (ihP hOk' s _ this) (Nat.le_succ _)
    · -- `s` starts with a nonempty suffix `s'` of `p₁`
      have htlt : t.length < p₁.length := by
        by_contra hle
        exact hnil (List.drop_eq_nil_of_le (Nat.le_of_not_lt hle))
      have hzero : t.length - p₁.length = 0 := Nat.sub_eq_zero_of_le (le_of_lt htlt)
      rw [hzero, List.drop_zero] at hs
      -- decompose the nonempty suffix
      obtain ⟨x, q, hxq⟩ := List.exists_cons_of_ne_nil hnil
      have hsx : s = x :: (q ++ P'.flatten) := by rw [hs, hxq]; simp
      -- the greedy head chunk covers at least `s' = x :: q`
      have hqlen : q.length ≤ (greedyTake c (q ++ P'.flatten) (c.itemSize x)).1.length := by
        rcases hOk₁.2 with hw | hone
        · -- `p₁` fits, hence so does its suffix `x :: q`
          have hsplit : chunkWeight c (p₁.take t.length) + chunkWeight c (x :: q) =
              chunkWeight c p₁ := by
            rw [← chunkWeight_append, ← hxq, List.take_append_drop]
          have hfits : c.itemSize x + chunkWeight c q ≤ MAX_PAYLOAD_BYTES := by
            simp only [chunkWeight, List.map_cons, List.sum_cons] at hsplit
            simp only [chunkWeight] at *
            omega
          exact greedyTake_ge_fitting c q P'.flatten (c.itemSize x) hfits
        · -- `p₁` is a singleton, so `q = []`
          have : q.length = 0 := by
            have hlen := congrArg List.length hxq
            simp [hone] at hlen
            omega
          omega
      -- the remainder after the greedy head chunk is a suffix of `P'.flatten`
      have hrem : (greedyTake c (q ++ P'.flatten) (c.itemSize x)).1 ++
          (greedyTake c (q ++ P'.flatten) (c.itemSize x)).2 = q ++ P'.flatten :=
        greedyTake_append c _ _
      set g1 := (greedyTake c (q ++ P'.flatten) (c.itemSize x)).1 with hg1
      set g2 := (greedyTake c (q ++ P'.flatten) (c.itemSize x)).2 with hg2
      have hg2eq : g2 = P'.flatten.drop (g1.length - q.length) := by
        have h1 : g2 = (g1 ++ g2).drop g1.length := by simp
        rw [h1, hrem, List.drop_append_eq_append_drop,
          List.drop_eq_nil_of_le hqlen, List.nil_append]
      have hsuffix : P'.flatten.take (g1.length - q.length) ++ g2 = P'.flatten := by
        rw [hg2eq]; exact List.take_append_drop _ _
      have hrec : (splitArraySpec c g2).length ≤ P'.length :=
        ihP hOk' g2 _ hsuffix
      rw [hsx]
      simp only [splitArraySpec, List.length_cons, ← hg2]
      omega

/-- Minimality of the greedy split: no legal contiguous partition of the same
array uses fewer chunks. -/
theorem splitArraySpec_minimal {α : Type} (c : Codec α) (arr : List α)
    (P : List (List α)) (hjoin : P.flatten = arr)
    (hOk : ∀ ch ∈ P, chunkOk c ch) :
    (splitArraySpec c arr).length ≤ P.length :=
  splitArraySpec_le_partition c P hOk arr [] (by simp [hjoin])

/-! ## Code graph and merge (`commands/index.ts`, lines 128-132) -/

/-- `Symbol` from `types.ts`. -/
structure Symbol where
  id : String
  fqname : String
  kind : String
  file : String
  span : Nat × Nat
  visibility : Option String := none
  modifiers : Option (List String) := none
deriving DecidableEq

/-- `CodeGraph` from `types.ts`. -/
structure CodeGraph where
  symbols : List Symbol
  calls : List Call
  modules : List Module

/-- The merge of `indexCommand` (lines 128-132): plain concatenation of the
per-extractor graphs, no dedup. -/
def mergeGraphs (g₁ g₂ : CodeGraph) : CodeGraph :=
  { symbols := g₁.symbols ++ g₂.symbols
    calls := g₁.calls ++ g₂.calls
    modules := g₁.modules ++ g₂.modules }

/-- A call edge with the given resolution kind (concrete sample data). -/
def mkCall (f t : String) (k : CallKind) : Call :=
  { from_ := f, to_ := t, site := { file := "a.ts", line := 1, col := 1 }, kind := k }

/-- Four calls, three static (`direct`) and one heuristic — the worked example
of spec §8. -/
def sampleCalls : List Call :=
  [mkCall "a" "b" CallKind.direct,
   mkCall "a" "c" CallKind.direct,
   mkCall "b" "c" CallKind.direct,
   mkCall "c" "d" CallKind.heuristic]

/-! ## Claim theorems: determinism accountant and frame store -/

/-- C3.  The determinism ratio of a merged `CodeGraph` is the number of
statically (`direct`) resolved call edges divided by the number of all call
edges; it is `1.0` on a graph with zero calls; and a graph with 4 calls of
which 3 are static has ratio `0.75`. -/
theorem detRatio_is_static_fraction :
    (∀ g : CodeGraph, g.calls.length = 0 → detRatio g.calls = 1)
    ∧ (∀ g : CodeGraph, 0 < g.calls.length →
        detRatio g.calls * (g.calls.length : ℚ) = (staticCalls g.calls : ℚ))
    ∧ detRatio sampleCalls = 3 / 4 := by
  refine ⟨?_, ?_, ?_⟩
  · intro g hg
    simp [detRatio, hg]
  · intro g hg
    have hne : ((g.calls.length : ℚ)) ≠ 0 := by
      exact_mod_cast Nat.pos_iff_ne_zero.mp hg
    simp [detRatio, hg, div_mul_cancel₀, hne]
  · have h1 : staticCalls sampleCalls = 3 := by decide
    have h2 : sampleCalls.length = 4 := by decide
    simp only [detRatio, h1, h2]
    norm_num

/-- C9.  The escalation signal fires exactly when the ratio is strictly below
the target and heuristics are not `off`; a ratio exactly equal to the target
never fires. -/
theorem escalation_target_is_inclusive_floor :
    (∀ (calls : List Call) (target : ℚ) (heuristics : String),
        escalationSignal calls target heuristics = true ↔
          (detRatio calls < target ∧ heuristics ≠ "off"))
    ∧ (∀ (calls : List Call) (heuristics : String),
        escalationSignal calls (detRatio calls) heuristics = false) := by
  constructor
  · intro calls target heuristics
    simp [escalationSignal, ne_eq]
  · intro calls heuristics
    simp [escalationSignal]

/-- C1.  `frame_id`s (and the chunk payloads, parts and counts) produced by
`buildFrames` are a pure function of `(kind, scope, inputsHash, payload)`:
they do not depend on the wall-clock timestamp, and neither do the chunk
boundaries or the chunk count. -/
theorem buildFrames_deterministic {α : Type} (c : Codec α) (kind : String)
    (scope : Scope) (inputsHash : String) (data : Payload α)
    (stats : Option (List (String × Nat))) (ts₁ ts₂ : String) :
    (buildFrames c kind scope inputsHash data stats ts₁).map
        (fun f => (f.frame_id, f.payload_b64, f.part, f.total_parts)) =
      (buildFrames c kind scope inputsHash data stats ts₂).map
        (fun f => (f.frame_id, f.payload_b64, f.part, f.total_parts))
    ∧ (buildFrames c kind scope inputsHash data stats ts₁).length =
      (buildFrames c kind scope inputsHash data stats ts₂).length := by
  constructor
  · simp only [buildFrames]
    split
    · simp
    · cases data <;> simp [chunkData, chunkFrame, List.map_map]
  · simp only [buildFrames]
    split
    · simp
    · cases data <;> simp [chunkData]

/-- C5.  Chunk splitting is lossless and order-preserving: concatenating the
chunks produced by `splitArray`, in order, reconstructs the original array
exactly. -/
theorem splitArray_roundtrip {α : Type} (c : Codec α) (arr : List α) :
    (splitArray c arr).flatten = arr := by
  rw [splitArray_eq_spec]
  exact splitArraySpec_join c arr.length arr le_rfl

/-- C4.  `chunkData` on an array splits it element-wise into the smallest
number of contiguous chunks whose summed element sizes stay within
`MAX_PAYLOAD_BYTES` (a single element larger than the bound becomes its own
oversized singleton chunk, never dropped), and emits one frame per chunk with
1-based `part` and `total_parts` = chunk count.  The "encoded size" of a chunk
is the measure the code itself uses: the sum of the elements'
`JSON.stringify` lengths. -/
theorem chunkData_minimal_chunking {α : Type} (c : Codec α) (items : List α)
    (kind : String) (scope : Scope) (inputsHash : String)
    (stats : Option (List (String × Nat))) (ts : String) :
    (∀ ch ∈ splitArray c items,
        ch ≠ [] ∧ (chunkWeight c ch ≤ MAX_PAYLOAD_BYTES ∨ ch.length = 1))
    ∧ (∀ P : List (List α), P.flatten = items →
        (∀ ch ∈ P, chunkOk c ch) → (splitArray c items).length ≤ P.length)
    ∧ (chunkData c kind scope inputsHash (Payload.arr items) stats ts).length =
        (splitArray c items).length
    ∧ (∀ (i : Nat) (h : i < (chunkData c kind scope inputsHash
          (Payload.arr items) stats ts).length),
        ((chunkData c kind scope inputsHash (Payload.arr items) stats ts).get
            ⟨i, h⟩).part = some (i + 1)
        ∧ ((chunkData c kind scope inputsHash (Payload.arr items) stats ts).get
            ⟨i, h⟩).total_parts = some (splitArray c items).length) := by
  refine ⟨?_, ?_, ?_, ?_⟩
  · rw [splitArray_eq_spec]
    exact splitArraySpec_chunks_ok c items.length items le_rfl
  · intro P hjoin hOk
    rw [splitArray_eq_spec]
    exact splitArraySpec_minimal c items P hjoin hOk
  · simp [chunkData]
  · intro i h
    have hlen : (chunkData c kind scope inputsHash (Payload.arr items) stats
        ts).length = (splitArray c items).length := by simp [chunkData]
    have hi : i < (splitArray c items).length := hlen ▸ h
    constructor
    · simp [chunkData, List.get_eq_getElem, chunkFrame]
    · simp [chunkData, List.get_eq_getElem, chunkFrame]

/-- A concrete codec over `Nat` items whose `JSON.stringify` length is the
item itself; used to evaluate the chunking theorems on concrete data. -/
def natCodec : Codec Nat :=
  { sha256 := fun s => s
    stringifyScope := fun _ => ""
    encPayload := fun _ => ""
    encItems := fun _ => ""
    encObj := fun _ => ""
    b64Len := fun s => s.length
    itemSize := fun n => n
    fieldSize := fun _ n => n }

/-- Concrete items: one oversized element, two that fill a chunk exactly, and
a trailing small one. -/
def witnessItems : List Nat := [204801, 100000, 104800, 1]

/-- The empty code graph. -/
def emptyGraph : CodeGraph := { symbols := [], calls := [], modules := [] }

/-- A code graph holding the four sample calls. -/
def sampleGraph : CodeGraph :=
  { symbols := [], calls := sampleCalls, modules := [] }

/-- Witness for C3: the zero-calls case and the ratio identity, evaluated on
concrete graphs. -/
theorem detRatio_is_static_fraction_witness :
    detRatio emptyGraph.calls = 1
    ∧ detRatio sampleGraph.calls * (sampleGraph.calls.length : ℚ) =
        (staticCalls sampleGraph.calls : ℚ) :=
  ⟨detRatio_is_static_fraction.1 emptyGraph (by decide),
   detRatio_is_static_fraction.2.1 sampleGraph (by decide)⟩

/-- Witness for C4: on `witnessItems` the greedy split needs at most as many
chunks as the explicit legal partition `[[204801], [100000, 104800], [1]]`,
and the first emitted frame carries `part = 1`. -/
theorem chunkData_minimal_chunking_witness :
    (splitArray natCodec witnessItems).length ≤ 3
    ∧ ((chunkData natCodec "codemap.symbols" { repo := "r", commit := "c" }
          "ih" (Payload.arr witnessItems) none "2024-01-01").get
          ⟨0, by decide⟩).part = some 1 := by
  constructor
  · exact (chunkData_minimal_chunking natCodec witnessItems "codemap.symbols"
      { repo := "r", commit := "c" } "ih" none "2024-01-01").2.1
      [[204801], [100000, 104800], [1]] (by decide) (by decide)
  · exact ((chunkData_minimal_chunking natCodec witnessItems "codemap.symbols"
      { repo := "r", commit := "c" } "ih" none "2024-01-01").2.2.2 0
      (by decide)).1

/-! ## Adjacency builder (`neighborhood.ts`, lines 40-74)

JS `Map`s are modelled as insertion-ordered association lists with
`mapGet`/`mapSet`/`mapHas` mirroring `Map.get`/`Map.set`/`Map.has`, and JS
`Set`s as insertion-ordered duplicate-free lists with `setAdd` mirroring
`Set.add`. -/

/-- JS `Map.get` (first matching key; keys are unique by construction). -/
def mapGet {β : Type} : List (String × β) → String → Option β
  | [], _ => none
  | (k', v') :: rest, k => if k' = k then some v' else mapGet rest k

/-- JS `Map.has`. -/
def mapHas {β : Type} (m : List (String × β)) (k : String) : Bool :=
  (mapGet m k).isSome

/-- JS `Map.set`: replace in place if the key exists (insertion order is
preserved), else append at the end. -/
def mapSet {β : Type} : List (String × β) → String → β → List (String × β)
  | [], k, v => [(k, v)]
  | (k', v') :: rest, k, v =>
    if k' = k then (k, v) :: rest else (k', v') :: mapSet rest k v

/-- JS `Set.add` on an insertion-ordered list. -/
def setAdd (s : List String) (x : String) : List String :=
  if x ∈ s then s else s ++ [x]

/-- `AdjacencyGraph` from `neighborhood.ts`: `outgoing`/`incoming` neighbor
sets and the `"from->to"`-keyed edge weights. -/
structure AdjacencyGraph where
  outgoing : List (String × List String)
  incoming : List (String × List String)
  weights : List (String × Nat)

/-- The weight key `` `${from}->${to}` `` of `buildAdjacencyGraph`. -/
def edgeKey (m : Module) : String :=
  m.from_ ++ "->" ++ m.to_

/-- One iteration of the `buildAdjacencyGraph` loop (`neighborhood.ts`
lines 45-71): ensure both endpoint keys exist, add the edge to both neighbor
sets, record the weight (overwriting any previous entry for the same key),
then ensure the reverse-direction keys exist as well. -/
def addModuleEdge (g : AdjacencyGraph) (m : Module) : AdjacencyGraph :=
  let outgoing :=
    if mapHas g.outgoing m.from_ then g.outgoing else mapSet g.outgoing m.from_ []
  let incoming :=
    if mapHas g.incoming m.to_ then g.incoming else mapSet g.incoming m.to_ []
  let outgoing := mapSet outgoing m.from_ (setAdd ((mapGet outgoing m.from_).getD []) m.to_)
  let incoming := mapSet incoming m.to_ (setAdd ((mapGet incoming m.to_).getD []) m.from_)
  let weights := mapSet g.weights (edgeKey m) m.weight
  let outgoing := if mapHas outgoing m.to_ then outgoing else mapSet outgoing m.to_ []
  let incoming := if mapHas incoming m.from_ then incoming else mapSet incoming m.from_ []
  { outgoing := outgoing, incoming := incoming, weights := weights }

/-- `buildAdjacencyGraph` (`neighborhood.ts` lines 40-74). -/
def buildAdjacencyGraph (modules : List Module) : AdjacencyGraph :=
  modules.foldl addModuleEdge { outgoing := [], incoming := [], weights := [] }

theorem mapGet_mapSet_self {β : Type} (m : List (String × β)) (k : String) (v : β) :
    mapGet (mapSet m k v) k = some v := by
  induction m with
  | nil => simp [mapSet, mapGet]
  | cons kv rest ih =>
    by_cases h : kv.1 = k
    · simp [mapSet, mapGet, h]
    · simp [mapSet, mapGet, h, ih]

theorem mapGet_mapSet_ne {β : Type} (m : List (String × β)) (k k' : String) (v : β)
    (h : k ≠ k') : mapGet (mapSet m k v) k' = mapGet m k' := by
  induction m with
  | nil => simp [mapSet, mapGet, h]
  | cons kv rest ih =>
    by_cases hk : kv.1 = k
    · simp [mapSet, mapGet, hk, h]
    · simp only [mapSet, if_neg hk]
      by_cases hk' : kv.1 = k'
      · simp [mapGet, hk']
      · simp [mapGet, hk', ih]

theorem mapHas_mapSet {β : Type} (m : List (String × β)) (k k' : String) (v : β) :
    mapHas (mapSet m k v) k' = (k = k' || mapHas m k') := by
  by_cases h : k = k'
  · subst h
    simp [mapHas, mapGet_mapSet_self]
  · simp [mapHas, mapGet_mapSet_ne m k k' v h, h]

/-- After `addModuleEdge`, a key present before stays present, and both
endpoints of the added edge are present, in both maps. -/
theorem addModuleEdge_has (g : AdjacencyGraph) (m : Module) :
    (∀ k, mapHas g.outgoing k = true → mapHas (addModuleEdge g m).outgoing k = true)
    ∧ (∀ k, mapHas g.incoming k = true → mapHas (addModuleEdge g m).incoming k = true)
    ∧ mapHas (addModuleEdge g m).outgoing m.from_ = true
    ∧ mapHas (addModuleEdge g m).outgoing m.to_ = true
    ∧ mapHas (addModuleEdge g m).incoming m.from_ = true
    ∧ mapHas (addModuleEdge g m).incoming m.to_ = true := by
  simp only [addModuleEdge, mapHas_mapSet]
  refine ⟨?_, ?_, ?_, ?_, ?_, ?_⟩ <;>
    (try intro k) <;>
    (repeat' split) <;>
    simp_all [mapHas_mapSet]

theorem foldl_addModuleEdge_has (l : List Module) :
    ∀ (g : AdjacencyGraph) (k : String),
      (mapHas g.outgoing k = true →
        mapHas (l.foldl addModuleEdge g).outgoing k = true)
      ∧ (mapHas g.incoming k = true →
        mapHas (l.foldl addModuleEdge g).incoming k = true) := by
  induction l with
  | nil => intro g k; simp
  | cons m rest ih =>
    intro g k
    constructor
    · intro h
      exact (ih (addModuleEdge g m) k).1 ((addModuleEdge_has g m).1 k h)
    · intro h
      exact (ih (addModuleEdge g m) k).2 ((addModuleEdge_has g m).2.1 k h)

theorem foldl_addModuleEdge_mem_has (l : List Module) :
    ∀ (g : AdjacencyGraph), ∀ m ∈ l,
      mapHas (l.foldl addModuleEdge g).outgoing m.from_ = true
      ∧ mapHas (l.foldl addModuleEdge g).outgoing m.to_ = true
      ∧ mapHas (l.foldl addModuleEdge g).incoming m.from_ = true
      ∧ mapHas (l.foldl addModuleEdge g).incoming m.to_ = true := by
  induction l with
  | nil => intro g m hm; simp at hm
  | cons m' rest ih =>
    intro g m hm
    rcases List.mem_cons.mp hm with hm | hm
    · subst hm
      have h := addModuleEdge_has g m
      have hp := foldl_addModuleEdge_has rest (addModuleEdge g m)
      exact ⟨(hp m.from_).1 h.2.2.1, (hp m.to_).1 h.2.2.2.1,
        (hp m.from_).2 h.2.2.2.2.1, (hp m.to_).2 h.2.2.2.2.2⟩
    · exact ih (addModuleEdge g m') m hm

/-- C7.  Every module that appears as an endpoint of any edge is a key of
both the `outgoing` and the `incoming` map of the built adjacency graph. -/
theorem buildAdjacencyGraph_no_orphans (modules : List Module) :
    ∀ m ∈ modules,
      mapHas (buildAdjacencyGraph modules).outgoing m.from_ = true
      ∧ mapHas (buildAdjacencyGraph modules).outgoing m.to_ = true
      ∧ mapHas (buildAdjacencyGraph modules).incoming m.from_ = true
      ∧ mapHas (buildAdjacencyGraph modules).incoming m.to_ = true :=
  foldl_addModuleEdge_mem_has modules _

/-- Witness for C7 on a concrete edge list. -/
theorem buildAdjacencyGraph_no_orphans_witness :
    mapHas (buildAdjacencyGraph
        [{ from_ := "A", to_ := "B", weight := 3 }]).outgoing "A" = true
    ∧ mapHas (buildAdjacencyGraph
        [{ from_ := "A", to_ := "B", weight := 3 }]).outgoing "B" = true
    ∧ mapHas (buildAdjacencyGraph
        [{ from_ := "A", to_ := "B", weight := 3 }]).incoming "A" = true
    ∧ mapHas (buildAdjacencyGraph
        [{ from_ := "A", to_ := "B", weight := 3 }]).incoming "B" = true :=
  buildAdjacencyGraph_no_orphans
    [{ from_ := "A", to_ := "B", weight := 3 }]
    { from_ := "A", to_ := "B", weight := 3 } (by simp)

/-- Two edges with the same `(from, to)` pair and different weights. -/
def dupEdges : List Module :=
  [{ from_ := "A", to_ := "B", weight := 1 },
   { from_ := "A", to_ := "B", weight := 2 }]

/-- Counterexample for C8: `buildAdjacencyGraph` does **not** sum the weights
of duplicate `(from, to)` edges — the weight stored for `"A->B"` after edges
of weight 1 and 2 is 2 (the last write), not 3 (the sum). -/
theorem weights_not_aggregated :
    mapGet (buildAdjacencyGraph dupEdges).weights "A->B" = some 2
    ∧ mapGet (buildAdjacencyGraph dupEdges).weights "A->B" ≠ some (1 + 2) := by
  constructor <;> decide

theorem addModuleEdge_weights (g : AdjacencyGraph) (m : Module) :
    (addModuleEdge g m).weights = mapSet g.weights (edgeKey m) m.weight := rfl

theorem foldl_weights_untouched (l : List Module) :
    ∀ (g : AdjacencyGraph) (k : String), (∀ e ∈ l, edgeKey e ≠ k) →
      mapGet (l.foldl addModuleEdge g).weights k = mapGet g.weights k := by
  induction l with
  | nil => intro g k _; rfl
  | cons e rest ih =>
    intro g k h
    have h1 : edgeKey e ≠ k := h e (by simp)
    have h2 : ∀ e' ∈ rest, edgeKey e' ≠ k := fun e' he' => h e' (by simp [he'])
    rw [List.foldl_cons, ih (addModuleEdge g e) k h2, addModuleEdge_weights,
      mapGet_mapSet_ne _ _ _ _ h1]

/-- C8 (amended).  Duplicate `(from, to)` edges are stored under the single
key `"from->to"`, whose value is the weight of the **last** such edge
(later writes overwrite earlier ones; weights are not summed). -/
theorem weights_last_write_wins (es₁ es₂ : List Module) (f t : String) (w : Nat)
    (h : ∀ e ∈ es₂, edgeKey e ≠ f ++ "->" ++ t) :
    mapGet (buildAdjacencyGraph
        (es₁ ++ { from_ := f, to_ := t, weight := w } :: es₂)).weights
      (f ++ "->" ++ t) = some w := by
  unfold buildAdjacencyGraph
  rw [List.foldl_append, List.foldl_cons,
    foldl_weights_untouched es₂ _ _ h, addModuleEdge_weights]
  exact mapGet_mapSet_self _ _ _

/-- Witness for the amended C8 on the concrete duplicate-edge list. -/
theorem weights_last_write_wins_witness :
    mapGet (buildAdjacencyGraph
        ([{ from_ := "A", to_ := "B", weight := 1 }] ++
          { from_ := "A", to_ := "B", weight := 2 } :: [])).weights
      ("A" ++ "->" ++ "B") = some 2 :=
  weights_last_write_wins [{ from_ := "A", to_ := "B", weight := 1 }] []
    "A" "B" 2 (by simp)

/-! ## Neighborhood extractor (`neighborhood.ts`, lines 79-170)

The BFS loop of `extractNeighborhood` is embedded as a well-founded recursion
`bfsLoop`; the termination measure counts the graph nodes not yet visited. -/

/-- The per-module policy record read by `getModuleMetadata`
(`neighborhood.ts` lines 161-169): the five metadata lists, each defaulting
to empty. -/
structure ModulePolicy where
  allowed_callers : List String := []
  forbidden_callers : List String := []
  feature_flags : List String := []
  requires_permissions : List String := []
  kill_patterns : List String := []
deriving DecidableEq

/-- The per-module policy map `modulePolicies` that `getModuleMetadata`
reads (`(policy.modules as any)?.modules || policy.modules || {}`): module id
to `ModulePolicy`. -/
def PolicyModules : Type := List (String × ModulePolicy)

/-- `ModuleWithMetadata` from `neighborhood.ts`. -/
structure ModuleWithMetadata where
  id : String
  coords : Nat × Nat
  allowed_callers : List String
  forbidden_callers : List String
  feature_flags : List String
  requires_permissions : List String
  kill_patterns : List String
deriving DecidableEq

/-- `NeighborhoodData` from `neighborhood.ts`. -/
structure NeighborhoodData where
  seed_modules : List String
  fold_radius : Nat
  modules : List ModuleWithMetadata

/-- `Math.ceil(Math.sqrt(total))` on a natural number. -/
def natCeilSqrt (n : Nat) : Nat :=
  if Nat.sqrt n * Nat.sqrt n = n then Nat.sqrt n else Nat.sqrt n + 1

/-- `getModuleMetadata` (`neighborhood.ts` lines 144-170): policy metadata
for one module, with grid coordinates derived from the index. -/
def getModuleMetadata (moduleId : String) (policy : PolicyModules)
    (index total : Nat) : ModuleWithMetadata :=
  let modulePolicy := (mapGet policy moduleId).getD {}
  { id := moduleId
    coords := (index % natCeilSqrt total, index / natCeilSqrt total)
    allowed_callers := modulePolicy.allowed_callers
    forbidden_callers := modulePolicy.forbidden_callers
    feature_flags := modulePolicy.feature_flags
    requires_permissions := modulePolicy.requires_permissions
    kill_patterns := modulePolicy.kill_patterns }

/-- `new Set([...outgoingNeighbors, ...incomingNeighbors])`
(`neighborhood.ts` lines 111-114). -/
def allNeighbors (g : AdjacencyGraph) (moduleId : String) : List String :=
  ((mapGet g.outgoing moduleId).getD [] ++ (mapGet g.incoming moduleId).getD []).dedup

/-- All neighbor-list entries of the graph: every node a BFS expansion can
push.  (Termination measure only.) -/
def graphNodes (g : AdjacencyGraph) : List String :=
  (g.outgoing.map Prod.snd).flatten ++ (g.incoming.map Prod.snd).flatten

/-- An upper bound on the length of any `allNeighbors` list.
(Termination measure only.) -/
def neighborCap (g : AdjacencyGraph) : Nat :=
  (g.outgoing.map (fun kv => kv.2.length)).sum +
    (g.incoming.map (fun kv => kv.2.length)).sum

/-- Nodes of a universe `univ` (or queued) not yet visited.
(Termination measure only.) -/
def unvisitedCount (univ : List String) (queue : List (String × Nat))
    (visited : List String) : Nat :=
  ((univ ++ queue.map Prod.fst).toFinset.filter
    (fun x => x ∉ visited)).card

/-- Termination measure of a BFS loop over a universe `univ` with at most
`cap` pushes per visit. -/
def bfsMeasure (univ : List String) (cap : Nat) (queue : List (String × Nat))
    (visited : List String) : Nat :=
  unvisitedCount univ queue visited * (cap + 1) + queue.length

theorem mapGet_mem_values {β : Type} :
    ∀ (m : List (String × β)) (k : String) (v : β),
      mapGet m k = some v → v ∈ m.map Prod.snd := by
  intro m
  induction m with
  | nil => intro k v h; simp [mapGet] at h
  | cons kv rest ih =>
    intro k v h
    by_cases hk : kv.1 = k
    · simp only [mapGet, if_pos hk, Option.some.injEq] at h
      simp [← h]
    · simp only [mapGet, if_neg hk] at h
      simp [ih k v h]

theorem allNeighbors_subset_graphNodes (g : AdjacencyGraph) (m : String) :
    ∀ n ∈ allNeighbors g m, n ∈ graphNodes g := by
  intro n hn
  simp only [allNeighbors, List.mem_dedup, List.mem_append] at hn
  simp only [graphNodes, List.mem_append]
  rcases hn with hn | hn
  · left
    rcases ho : mapGet g.outgoing m with _ | v
    · simp [ho] at hn
    · rw [ho, Option.getD_some] at hn
      exact List.mem_flatten.mpr ⟨v, mapGet_mem_values g.outgoing m v ho, hn⟩
  · right
    rcases hi : mapGet g.incoming m with _ | v
    · simp [hi] at hn
    · rw [hi, Option.getD_some] at hn
      exact List.mem_flatten.mpr ⟨v, mapGet_mem_values g.incoming m v hi, hn⟩

theorem allNeighbors_length_le (g : AdjacencyGraph) (m : String) :
    (allNeighbors g m).length ≤ neighborCap g := by
  have hd : (allNeighbors g m).length ≤
      ((mapGet g.outgoing m).getD []).length +
        ((mapGet g.incoming m).getD []).length := by
    unfold allNeighbors
    have := List.Sublist.length_le (List.dedup_sublist
      ((mapGet g.outgoing m).getD [] ++ (mapGet g.incoming m).getD []))
    simpa using this
  have ho : ((mapGet g.outgoing m).getD []).length ≤
      (g.outgoing.map (fun kv => kv.2.length)).sum := by
    rcases h : mapGet g.outgoing m with _ | v
    · simp
    · have hv : v.length ∈ g.outgoing.map (fun kv => kv.2.length) := by
        have := mapGet_mem_values g.outgoing m v h
        simp only [List.mem_map] at this ⊢
        obtain ⟨kv, hkv, hkv2⟩ := this
        exact ⟨kv, hkv, by rw [hkv2]⟩
      simpa using List.single_le_sum (fun x _ => Nat.zero_le x) _ hv
  have hi : ((mapGet g.incoming m).getD []).length ≤
      (g.incoming.map (fun kv => kv.2.length)).sum := by
    rcases h : mapGet g.incoming m with _ | v
    · simp
    · have hv : v.length ∈ g.incoming.map (fun kv => kv.2.length) := by
        have := mapGet_mem_values g.incoming m v h
        simp only [List.mem_map] at this ⊢
        obtain ⟨kv, hkv, hkv2⟩ := this
        exact ⟨kv, hkv, by rw [hkv2]⟩
      simpa using List.single_le_sum (fun x _ => Nat.zero_le x) _ hv
  unfold neighborCap
  omega

theorem unvisitedCount_tail_le (univ : List String) (m : String) (d : Nat)
    (rest : List (String × Nat)) (visited : List String) :
    unvisitedCount univ rest visited ≤
      unvisitedCount univ ((m, d) :: rest) visited := by
  apply Finset.card_le_card
  intro x hx
  simp only [Finset.mem_filter, List.mem_toFinset, List.mem_append,
    List.map_cons, List.mem_cons] at hx ⊢
  tauto

theorem unvisitedCount_stop_le (univ : List String) (m : String) (d : Nat)
    (rest : List (String × Nat)) (visited : List String) :
    unvisitedCount univ rest (m :: visited) ≤
      unvisitedCount univ ((m, d) :: rest) visited := by
  apply Finset.card_le_card
  intro x hx
  simp only [Finset.mem_filter, List.mem_toFinset, List.mem_append,
    List.map_cons, List.mem_cons] at hx ⊢
  tauto

theorem unvisitedCount_expand_lt (univ : List String) (m : String) (d d' : Nat)
    (rest : List (String × Nat)) (visited : List String) (ns : List String)
    (hm : m ∉ visited) (hns : ∀ x ∈ ns, x ∈ univ) :
    unvisitedCount univ (rest ++ ns.map (fun n => (n, d'))) (m :: visited) <
      unvisitedCount univ ((m, d) :: rest) visited := by
  have hmem : m ∈ ((univ ++ ((m, d) :: rest).map Prod.fst).toFinset.filter
      (fun x => x ∉ visited)) := by
    simp [List.mem_toFinset, hm]
  have hsub : ((univ ++ (rest ++ ns.map (fun n => (n, d'))).map
        Prod.fst).toFinset.filter (fun x => x ∉ m :: visited)) ⊆
      ((univ ++ ((m, d) :: rest).map Prod.fst).toFinset.filter
        (fun x => x ∉ visited)).erase m := by
    intro x hx
    simp only [Finset.mem_filter, List.mem_toFinset, List.mem_append,
      List.map_append, List.map_cons, List.mem_cons, List.map_map,
      Finset.mem_erase, List.mem_map, Function.comp] at hx ⊢
    obtain ⟨hx1, hx2⟩ := hx
    push_neg at hx2
    refine ⟨hx2.1, ?_, hx2.2⟩
    rcases hx1 with h | h
    · tauto
    · rcases h with h | h
      · tauto
      · obtain ⟨n, hn, hxn⟩ := h
        have := hns n hn
        subst hxn
        tauto
  calc unvisitedCount univ (rest ++ ns.map (fun n => (n, d'))) (m :: visited)
      ≤ (((univ ++ ((m, d) :: rest).map Prod.fst).toFinset.filter
          (fun x => x ∉ visited)).erase m).card := Finset.card_le_card hsub
    _ < unvisitedCount univ ((m, d) :: rest) visited := by
        unfold unvisitedCount
        exact Finset.card_erase_lt_of_mem hmem

/-- The BFS while-loop of `extractNeighborhood` (`neighborhood.ts` lines
97-122).  State: the queue of `(moduleId, distance)` entries, the visited
set, and `modulesInNeighborhood` (`seen`).  Termination: each iteration
either shrinks the queue or visits a new node of the finite universe. -/
def bfsLoop (g : AdjacencyGraph) (foldRadius : Nat) :
    List (String × Nat) → List String → List String → List String
  | [], _, seen => seen
  | (moduleId, distance) :: rest, visited, seen =>
    if moduleId ∈ visited then
      bfsLoop g foldRadius rest visited seen
    else
      if foldRadius ≤ distance then
        bfsLoop g foldRadius rest (moduleId :: visited) seen
      else
        let ns := (allNeighbors g moduleId).filter
          (fun n => n ∉ moduleId :: visited)
        bfsLoop g foldRadius (rest ++ ns.map (fun n => (n, distance + 1)))
          (moduleId :: visited) (seen ++ ns)
termination_by queue visited _ => bfsMeasure (graphNodes g) (neighborCap g) queue visited
decreasing_by
· have h := unvisitedCount_tail_le (graphNodes g) moduleId distance rest visited
  have h2 := Nat.mul_le_mul_right (neighborCap g + 1) h
  simp only [bfsMeasure, List.length_cons]
  omega
· have h := unvisitedCount_stop_le (graphNodes g) moduleId distance rest visited
  have h2 := Nat.mul_le_mul_right (neighborCap g + 1) h
  simp only [bfsMeasure, List.length_cons]
  omega
· have h := unvisitedCount_expand_lt (graphNodes g) moduleId distance
    (distance + 1) rest visited ((allNeighbors g moduleId).filter
      (fun n => n ∉ moduleId :: visited))
    (by assumption)
    (fun x hx => allNeighbors_subset_graphNodes g moduleId x
      (List.mem_of_mem_filter hx))
  have h2 : ((allNeighbors g moduleId).filter
      (fun n => n ∉ moduleId :: visited)).length ≤ neighborCap g :=
    le_trans (List.length_filter_le _ _) (allNeighbors_length_le g moduleId)
  have h3 := Nat.mul_le_mul_right (neighborCap g + 1) (Nat.succ_le_of_lt h)
  rw [Nat.succ_mul] at h3
  simp only [bfsMeasure, List.length_append, List.length_map, List.length_cons]
  omega

/-- `extractNeighborhood` (`neighborhood.ts` lines 79-139): multi-source BFS
from the seeds, then the collected module ids are sorted and annotated with
policy metadata. -/
def extractNeighborhood (seedModules : List String)
    (adjacencyGraph : AdjacencyGraph) (policy : PolicyModules)
    (foldRadius : Nat) : NeighborhoodData :=
  let seen := bfsLoop adjacencyGraph foldRadius
    (seedModules.map (fun s => (s, 0))) [] seedModules
  let moduleIdArray := (seen.dedup.insertionSort (fun a b => a ≤ b))
  { seed_modules := seedModules
    fold_radius := foldRadius
    modules := moduleIdArray.enum.map
      (fun p => getModuleMetadata p.2 policy p.1 moduleIdArray.length) }

/-- The module ids of an extracted neighborhood. -/
def neighborhoodIds (nd : NeighborhoodData) : List String :=
  nd.modules.map (fun m => m.id)

/-! ## Flat-edge-list BFS (`commands/atlas-frame.ts`, lines 80-108) -/

/-- The next-hop nodes `buildModuleNeighborhood` derives from one popped id:
`moduleDeps.filter(m => m.from === id || m.to === id)` mapped to the other
endpoint. -/
def connectedNext (moduleDeps : List Module) (id : String) : List String :=
  (moduleDeps.filter (fun m => m.from_ = id || m.to_ = id)).map
    (fun dep => if dep.from_ = id then dep.to_ else dep.from_)

/-- All edge endpoints.  (Termination measure only.) -/
def edgeNodes (moduleDeps : List Module) : List String :=
  moduleDeps.map Module.from_ ++ moduleDeps.map Module.to_

theorem connectedNext_subset_edgeNodes (moduleDeps : List Module) (id : String) :
    ∀ x ∈ connectedNext moduleDeps id, x ∈ edgeNodes moduleDeps := by
  intro x hx
  simp only [connectedNext, List.mem_map, List.mem_filter] at hx
  obtain ⟨dep, ⟨hdep, _⟩, hval⟩ := hx
  simp only [edgeNodes, List.mem_append, List.mem_map]
  by_cases h : dep.from_ = id
  · rw [if_pos h] at hval
    exact Or.inr ⟨dep, hdep, hval⟩
  · rw [if_neg h] at hval
    exact Or.inl ⟨dep, hdep, hval⟩

theorem connectedNext_length_le (moduleDeps : List Module) (id : String) :
    (connectedNext moduleDeps id).length ≤ moduleDeps.length := by
  simpa [connectedNext] using List.length_filter_le _ moduleDeps

/-- The BFS while-loop of `buildModuleNeighborhood` (`atlas-frame.ts` lines
89-105).  One merged skip condition (`visited.has(id) || dist > radius`);
a popped unvisited in-radius id is added to the visited set and the module
set, and all its unvisited `connectedNext` nodes are queued. -/
def atlasLoop (moduleDeps : List Module) (radius : Nat) :
    List (String × Nat) → List String → List String → List String
  | [], _, moduleSet => moduleSet
  | (nodeId, nodeDist) :: rest, visited, moduleSet =>
    if nodeId ∈ visited ∨ radius < nodeDist then
      atlasLoop moduleDeps radius rest visited moduleSet
    else
      let nexts := (connectedNext moduleDeps nodeId).filter
        (fun n => n ∉ nodeId :: visited)
      atlasLoop moduleDeps radius (rest ++ nexts.map (fun n => (n, nodeDist + 1)))
        (nodeId :: visited) (moduleSet ++ [nodeId])
termination_by queue visited _ =>
  bfsMeasure (edgeNodes moduleDeps) moduleDeps.length queue visited
decreasing_by
· have h := unvisitedCount_tail_le (edgeNodes moduleDeps) moduleId distance rest visited
  have h2 := Nat.mul_le_mul_right (moduleDeps.length + 1) h
  simp only [bfsMeasure, List.length_cons]
  omega
· rename_i hskip
  have hm : moduleId ∉ visited := fun hv => hskip (Or.inl hv)
  have h := unvisitedCount_expand_lt (edgeNodes moduleDeps) moduleId distance (distance + 1)
    rest visited ((connectedNext moduleDeps moduleId).filter
      (fun n => n ∉ moduleId :: visited)) hm
    (fun x hx => connectedNext_subset_edgeNodes moduleDeps moduleId x
      (List.mem_of_mem_filter hx))
  have h2 : ((connectedNext moduleDeps moduleId).filter
      (fun n => n ∉ moduleId :: visited)).length ≤ moduleDeps.length :=
    le_trans (List.length_filter_le _ _) (connectedNext_length_le moduleDeps moduleId)
  have h3 := Nat.mul_le_mul_right (moduleDeps.length + 1) (Nat.succ_le_of_lt h)
  rw [Nat.succ_mul] at h3
  simp only [bfsMeasure, List.length_append, List.length_map, List.length_cons]
  omega

/-- `buildModuleNeighborhood` (`atlas-frame.ts` lines 80-108): the module set
starts as the seed set, and the loop adds every id popped within the radius.
(The JS `Set` is modelled as a list; only membership matters downstream.) -/
def buildModuleNeighborhood (seedModules : List String)
    (moduleDeps : List Module) (radius : Nat) : List String :=
  atlasLoop moduleDeps radius (seedModules.map (fun id => (id, 0))) []
    seedModules

/-! ## Mathematical BFS balls

Both BFS loops are proven to return exactly the radius-`r` ball of their
neighbor function.  The ball, the path relation `reachIn` and the two
"remaining additions" functions `future`/`futureA` are parameterised by an
arbitrary neighbor function `N`. -/

/-- One neighbor-expansion step of the neighbor function `N`. -/
def nbhd (N : String → Finset String) (s : Finset String) : Finset String :=
  s.biUnion N

/-- Nodes within BFS distance `n` of the seeds along `N`. -/
def ball (N : String → Finset String) (seeds : List String) : Nat → Finset String
  | 0 => seeds.toFinset
  | n + 1 => ball N seeds n ∪ nbhd N (ball N seeds n)

/-- There is a walk of length at most `n` from `a` to `b` along `N`
("BFS distance from `a` to `b` is ≤ `n`"). -/
def reachIn (N : String → Finset String) : Nat → String → String → Prop
  | 0, a, b => a = b
  | n + 1, a, b => a = b ∨ ∃ x ∈ N a, reachIn N n x b

/-- What the `extractNeighborhood` BFS loop will still add to `seen` from a
level-structured state: `FA` holds the queued nodes at distance `d`, `FB`
those at distance `d + 1`, `V` the visited set. -/
def future (N : String → Finset String) (r d : Nat)
    (FA FB V : Finset String) : Finset String :=
  if r ≤ d then ∅
  else
    (nbhd N (FA \ V) \ V) ∪
      future N r (d + 1) (FB ∪ (nbhd N (FA \ V) \ V)) ∅ (V ∪ (FA \ V))
termination_by r - d
decreasing_by omega

/-- What the `buildModuleNeighborhood` BFS loop will still add to the module
set from a level-structured state. -/
def futureA (N : String → Finset String) (r d : Nat)
    (FA FB V : Finset String) : Finset String :=
  if r < d then ∅
  else
    (FA \ V) ∪
      futureA N r (d + 1) (FB ∪ (nbhd N (FA \ V) \ V)) ∅ (V ∪ (FA \ V))
termination_by r + 1 - d
decreasing_by omega

theorem mem_nbhd (N : String → Finset String) (s : Finset String) (x : String) :
    x ∈ nbhd N s ↔ ∃ y ∈ s, x ∈ N y := Finset.mem_biUnion

theorem nbhd_mono (N : String → Finset String) {s t : Finset String}
    (h : s ⊆ t) : nbhd N s ⊆ nbhd N t :=
  Finset.biUnion_subset_biUnion_of_subset_left N h

theorem future_stop (N : String → Finset String) (r d : Nat)
    (FA FB V : Finset String) (h : r ≤ d) : future N r d FA FB V = ∅ := by
  rw [future, if_pos h]

theorem futureA_stop (N : String → Finset String) (r d : Nat)
    (FA FB V : Finset String) (h : r < d) : futureA N r d FA FB V = ∅ := by
  rw [futureA, if_pos h]

theorem future_congr (N : String → Finset String) (r : Nat) :
    ∀ (k d : Nat), r - d ≤ k → ∀ (FA FB FA' FB' V : Finset String),
      FA \ V = FA' \ V → FB \ V = FB' \ V →
      future N r d FA FB V = future N r d FA' FB' V := by
  intro k
  induction k with
  | zero =>
    intro d hk FA FB FA' FB' V h1 h2
    have hd : r ≤ d := by omega
    rw [future_stop N r d _ _ _ hd, future_stop N r d _ _ _ hd]
  | succ k ih =>
    intro d hk FA FB FA' FB' V h1 h2
    by_cases hd : r ≤ d
    · rw [future_stop N r d _ _ _ hd, future_stop N r d _ _ _ hd]
    · conv_lhs => rw [future]
      conv_rhs => rw [future]
      rw [if_neg hd, if_neg hd, h1]
      congr 1
      apply ih (d + 1) (by omega)
      · have hfb : ∀ x, x ∉ V → (x ∈ FB ↔ x ∈ FB') := by
          intro x hxV
          have := Finset.ext_iff.mp h2 x
          simpa [Finset.mem_sdiff, hxV] using this
        ext x
        by_cases hxV : x ∈ V
        · simp [Finset.mem_sdiff, Finset.mem_union, hxV]
        · have := hfb x hxV
          simp only [Finset.mem_sdiff, Finset.mem_union, this]
      · rfl

theorem futureA_congr (N : String → Finset String) (r : Nat) :
    ∀ (k d : Nat), r + 1 - d ≤ k → ∀ (FA FB FA' FB' V : Finset String),
      FA \ V = FA' \ V → FB \ V = FB' \ V →
      futureA N r d FA FB V = futureA N r d FA' FB' V := by
  intro k
  induction k with
  | zero =>
    intro d hk FA FB FA' FB' V h1 h2
    have hd : r < d := by omega
    rw [futureA_stop N r d _ _ _ hd, futureA_stop N r d _ _ _ hd]
  | succ k ih =>
    intro d hk FA FB FA' FB' V h1 h2
    by_cases hd : r < d
    · rw [futureA_stop N r d _ _ _ hd, futureA_stop N r d _ _ _ hd]
    · conv_lhs => rw [futureA]
      conv_rhs => rw [futureA]
      rw [if_neg hd, if_neg hd, h1]
      congr 1
      apply ih (d + 1) (by omega)
      · have hfb : ∀ x, x ∉ V → (x ∈ FB ↔ x ∈ FB') := by
          intro x hxV
          have := Finset.ext_iff.mp h2 x
          simpa [Finset.mem_sdiff, hxV] using this
        ext x
        by_cases hxV : x ∈ V
        · simp [Finset.mem_sdiff, Finset.mem_union, hxV]
        · have := hfb x hxV
          simp only [Finset.mem_sdiff, Finset.mem_union, this]
      · rfl

theorem future_empty (N : String → Finset String) (r : Nat) :
    ∀ (k d : Nat), r - d ≤ k → ∀ (V : Finset String),
      future N r d ∅ ∅ V = ∅ := by
  intro k
  induction k with
  | zero =>
    intro d hk V
    exact future_stop N r d _ _ _ (by omega)
  | succ k ih =>
    intro d hk V
    by_cases hd : r ≤ d
    · exact future_stop N r d _ _ _ hd
    · rw [future, if_neg hd]
      simp [nbhd, ih (d + 1) (by omega)]

theorem futureA_empty (N : String → Finset String) (r : Nat) :
    ∀ (k d : Nat), r + 1 - d ≤ k → ∀ (V : Finset String),
      futureA N r d ∅ ∅ V = ∅ := by
  intro k
  induction k with
  | zero =>
    intro d hk V
    exact futureA_stop N r d _ _ _ (by omega)
  | succ k ih =>
    intro d hk V
    by_cases hd : r < d
    · exact futureA_stop N r d _ _ _ hd
    · rw [futureA, if_neg hd]
      simp [nbhd, ih (d + 1) (by omega)]

theorem future_shift (N : String → Finset String) (r d : Nat)
    (FB V : Finset String) :
    future N r d ∅ FB V = future N r (d + 1) FB ∅ V := by
  by_cases hd : r ≤ d
  · rw [future_stop N r d _ _ _ hd, future_stop N r (d + 1) _ _ _ (by omega)]
  · rw [future, if_neg hd]
    simp [nbhd]

theorem futureA_shift (N : String → Finset String) (r d : Nat)
    (FB V : Finset String) :
    futureA N r d ∅ FB V = futureA N r (d + 1) FB ∅ V := by
  by_cases hd : r < d
  · rw [futureA_stop N r d _ _ _ hd, futureA_stop N r (d + 1) _ _ _ (by omega)]
  · rw [futureA, if_neg hd]
    simp [nbhd]

theorem insert_sdiff_not_mem (m : String) (FA V : Finset String) (hm : m ∉ V) :
    (insert m FA) \ V = insert m (FA \ V) := by
  ext x
  simp only [Finset.mem_sdiff, Finset.mem_insert]
  constructor
  · rintro ⟨h | h, hv⟩
    · exact Or.inl h
    · exact Or.inr ⟨h, hv⟩
  · rintro (h | ⟨h1, h2⟩)
    · subst h
      exact ⟨Or.inl rfl, hm⟩
    · exact ⟨Or.inr h1, h2⟩

theorem union_insert_sdiff (m : String) (FA V : Finset String) :
    V ∪ (insert m (FA \ V)) = insert m V ∪ (FA \ insert m V) := by
  ext x
  simp only [Finset.mem_union, Finset.mem_insert, Finset.mem_sdiff]
  by_cases hxm : x = m <;> by_cases hxV : x ∈ V <;> by_cases hxA : x ∈ FA <;>
    simp [hxm, hxV, hxA]

theorem nbhd_split (N : String → Finset String) (m : String) (FA V : Finset String) :
    (∀ x, x ∈ nbhd N (FA \ V) → x ∈ N m ∨ x ∈ nbhd N (FA \ insert m V))
    ∧ (∀ x, x ∈ nbhd N (FA \ insert m V) → x ∈ nbhd N (FA \ V)) := by
  constructor
  · intro x hx
    obtain ⟨y, hy, hxy⟩ := (mem_nbhd N _ x).mp hx
    rw [Finset.mem_sdiff] at hy
    by_cases hym : y = m
    · subst hym
      exact Or.inl hxy
    · refine Or.inr ((mem_nbhd N _ x).mpr ⟨y, Finset.mem_sdiff.mpr ⟨hy.1, ?_⟩, hxy⟩)
      simp [hym, hy.2]
  · intro x hx
    refine nbhd_mono N ?_ hx
    intro y hy
    rw [Finset.mem_sdiff] at hy ⊢
    simp only [Finset.mem_insert] at hy
    exact ⟨hy.1, fun h => hy.2 (Or.inr h)⟩

set_option maxHeartbeats 2000000 in
theorem future_step (N : String → Finset String) (r d : Nat) (m : String)
    (FA FB V : Finset String) (hd : d < r) (hm : m ∉ V) :
    future N r d (insert m FA) FB V ∪ {m} =
      (N m \ insert m V) ∪
        future N r d FA (FB ∪ (N m \ insert m V)) (insert m V) ∪ {m} := by
  have hnr : ¬ r ≤ d := by omega
  have hins := insert_sdiff_not_mem m FA V hm
  have hnb : nbhd N (insert m (FA \ V)) = N m ∪ nbhd N (FA \ V) := by
    simp [nbhd, Finset.biUnion_insert]
  have hVW := union_insert_sdiff m FA V
  have hsub1 := (nbhd_split N m FA V).1
  have hsub2 := (nbhd_split N m FA V).2
  conv_lhs => rw [future]
  conv_rhs => rw [future]
  rw [if_neg hnr, if_neg hnr, hins, hnb, hVW]
  have hfut : future N r (d + 1) (FB ∪ ((N m ∪ nbhd N (FA \ V)) \ V)) ∅
      (insert m V ∪ (FA \ insert m V)) =
      future N r (d + 1)
        ((FB ∪ (N m \ insert m V)) ∪ (nbhd N (FA \ insert m V) \ insert m V)) ∅
        (insert m V ∪ (FA \ insert m V)) := by
    apply future_congr N r (r - (d + 1)) (d + 1) le_rfl
    · ext x
      have h1 := hsub1 x
      have h2 := hsub2 x
      simp only [Finset.mem_sdiff, Finset.mem_union, Finset.mem_insert]
        at h1 h2 ⊢
      tauto
    · rfl
  rw [hfut]
  ext x
  have h1 := hsub1 x
  have h2 := hsub2 x
  simp only [Finset.mem_union, Finset.mem_sdiff, Finset.mem_insert,
    Finset.mem_singleton] at h1 h2 ⊢
  tauto

set_option maxHeartbeats 2000000 in
theorem futureA_step (N : String → Finset String) (r d : Nat) (m : String)
    (FA FB V : Finset String) (hd : d ≤ r) (hm : m ∉ V) :
    futureA N r d (insert m FA) FB V =
      {m} ∪ futureA N r d FA (FB ∪ (N m \ insert m V)) (insert m V) := by
  have hnr : ¬ r < d := by omega
  have hins := insert_sdiff_not_mem m FA V hm
  have hnb : nbhd N (insert m (FA \ V)) = N m ∪ nbhd N (FA \ V) := by
    simp [nbhd, Finset.biUnion_insert]
  have hVW := union_insert_sdiff m FA V
  have hsub1 := (nbhd_split N m FA V).1
  have hsub2 := (nbhd_split N m FA V).2
  conv_lhs => rw [futureA]
  conv_rhs => rw [futureA]
  rw [if_neg hnr, if_neg hnr, hins, hnb, hVW]
  have hfut : futureA N r (d + 1) (FB ∪ ((N m ∪ nbhd N (FA \ V)) \ V)) ∅
      (insert m V ∪ (FA \ insert m V)) =
      futureA N r (d + 1)
        ((FB ∪ (N m \ insert m V)) ∪ (nbhd N (FA \ insert m V) \ insert m V)) ∅
        (insert m V ∪ (FA \ insert m V)) := by
    apply futureA_congr N r (r + 1 - (d + 1)) (d + 1) le_rfl
    · ext x
      have h1 := hsub1 x
      have h2 := hsub2 x
      simp only [Finset.mem_sdiff, Finset.mem_union, Finset.mem_insert]
        at h1 h2 ⊢
      tauto
    · rfl
  rw [hfut]
  ext x
  have h1 := hsub1 x
  have h2 := hsub2 x
  simp only [Finset.mem_union, Finset.mem_sdiff, Finset.mem_insert,
    Finset.mem_singleton] at h1 h2 ⊢
  tauto

/-- The neighbor function of `extractNeighborhood`'s BFS, as a Finset. -/
def adjN (g : AdjacencyGraph) : String → Finset String :=
  fun m => (allNeighbors g m).toFinset

/-- The neighbor function of `buildModuleNeighborhood`'s BFS, as a Finset. -/
def edgeN (moduleDeps : List Module) : String → Finset String :=
  fun m => (connectedNext moduleDeps m).toFinset

theorem filter_not_visited_toFinset (l : List String) (m : String)
    (visited : List String) :
    (l.filter (fun n => n ∉ m :: visited)).toFinset =
      l.toFinset \ insert m visited.toFinset := by
  ext x
  simp only [List.toFinset_filter, Finset.mem_filter, List.mem_toFinset,
    Finset.mem_sdiff, Finset.mem_insert, List.mem_cons, decide_eq_true_eq]

theorem union_absorb_insert (s x : Finset String) (m : String) (hm : m ∈ s) :
    s ∪ x = s ∪ (x ∪ {m}) := by
  ext y
  simp only [Finset.mem_union, Finset.mem_singleton]
  constructor
  · tauto
  · rintro (h | h | h)
    · tauto
    · tauto
    · subst h
      exact Or.inl hm

theorem insert_sdiff_mem_congr (b : String) (s V : Finset String) (hb : b ∈ V) :
    (insert b s) \ V = s \ V := by
  ext x
  simp only [Finset.mem_sdiff, Finset.mem_insert]
  constructor
  · rintro ⟨h | h, hv⟩
    · subst h
      exact absurd hb hv
    · exact ⟨h, hv⟩
  · rintro ⟨h, hv⟩
    exact ⟨Or.inr h, hv⟩

/-- The BFS loop of `extractNeighborhood`, on a level-structured queue,
returns `seen` plus exactly the `future` of the state. -/
theorem bfsLoop_eq_future (g : AdjacencyGraph) (r : Nat) :
    ∀ (queue : List (String × Nat)) (visited seen : List String),
      ∀ (d : Nat) (A B : List String),
        queue = A.map (fun a => (a, d)) ++ B.map (fun b => (b, d + 1)) →
        (∀ x ∈ A, x ∈ seen) → (∀ x ∈ B, x ∈ seen) →
        (bfsLoop g r queue visited seen).toFinset =
          seen.toFinset ∪
            future (adjN g) r d A.toFinset B.toFinset visited.toFinset := by
  intro queue visited seen
  induction queue, visited, seen using bfsLoop.induct g r with
  | case1 visited seen =>
    intro d A B hshape hA hB
    have hA0 : A = [] := by
      rcases A with _ | ⟨a, A'⟩
      · rfl
      · simp at hshape
    subst hA0
    have hB0 : B = [] := by
      rcases B with _ | ⟨b, B'⟩
      · rfl
      · simp at hshape
    subst hB0
    rw [show bfsLoop g r [] visited seen = seen from by rw [bfsLoop]]
    simp only [List.toFinset_nil]
    rw [future_empty (adjN g) r (r - d) d le_rfl]
    simp
  | case2 m dist rest visited seen hmem ih =>
    intro d A B hshape hA hB
    have hstep : bfsLoop g r ((m, dist) :: rest) visited seen =
        bfsLoop g r rest visited seen := by
      rw [bfsLoop, if_pos hmem]
    rcases A with _ | ⟨a, A'⟩
    · rcases B with _ | ⟨b, B'⟩
      · simp at hshape
      · simp only [List.map_nil, List.nil_append, List.map_cons,
          List.cons.injEq, Prod.mk.injEq] at hshape
        obtain ⟨⟨hmb, hdd⟩, hrest⟩ := hshape
        subst hmb
        subst hdd
        rw [hstep, ih (d + 1) B' [] (by simpa using hrest)
          (fun x hx => hB x (by simp [hx])) (by simp)]
        simp only [List.toFinset_nil, List.toFinset_cons]
        rw [future_shift]
        have hcongr : future (adjN g) r (d + 1) (insert m B'.toFinset) ∅
            visited.toFinset =
            future (adjN g) r (d + 1) B'.toFinset ∅ visited.toFinset := by
          apply future_congr (adjN g) r (r - (d + 1)) (d + 1) le_rfl
          · exact insert_sdiff_mem_congr m _ _ (List.mem_toFinset.mpr hmem)
          · rfl
        rw [hcongr]
    · simp only [List.map_cons, List.cons_append, List.cons.injEq,
        Prod.mk.injEq] at hshape
      obtain ⟨⟨hma, hdd⟩, hrest⟩ := hshape
      subst hma
      subst hdd
      rw [hstep, ih dist A' B hrest (fun x hx => hA x (by simp [hx])) hB]
      simp only [List.toFinset_cons]
      have hcongr : future (adjN g) r dist (insert m A'.toFinset) B.toFinset
          visited.toFinset =
          future (adjN g) r dist A'.toFinset B.toFinset visited.toFinset := by
        apply future_congr (adjN g) r (r - dist) dist le_rfl
        · exact insert_sdiff_mem_congr m _ _ (List.mem_toFinset.mpr hmem)
        · rfl
      rw [hcongr]
  | case3 m dist rest visited seen hmem hstop ih =>
    intro d A B hshape hA hB
    have hstep : bfsLoop g r ((m, dist) :: rest) visited seen =
        bfsLoop g r rest (m :: visited) seen := by
      rw [bfsLoop, if_neg hmem, if_pos hstop]
    rcases A with _ | ⟨a, A'⟩
    · rcases B with _ | ⟨b, B'⟩
      · simp at hshape
      · simp only [List.map_nil, List.nil_append, List.map_cons,
          List.cons.injEq, Prod.mk.injEq] at hshape
        obtain ⟨⟨hmb, hdd⟩, hrest⟩ := hshape
        subst hmb
        subst hdd
        rw [hstep, ih (d + 1) B' [] (by simpa using hrest)
          (fun x hx => hB x (by simp [hx])) (by simp)]
        simp only [List.toFinset_nil, List.toFinset_cons]
        rw [future_shift]
        rw [future_stop (adjN g) r (d + 1) _ _ _ hstop]
        rw [future_stop (adjN g) r (d + 1) _ _ _ hstop]
    · simp only [List.map_cons, List.cons_append, List.cons.injEq,
        Prod.mk.injEq] at hshape
      obtain ⟨⟨hma, hdd⟩, hrest⟩ := hshape
      subst hma
      subst hdd
      rw [hstep, ih dist A' B hrest (fun x hx => hA x (by simp [hx])) hB]
      rw [future_stop (adjN g) r dist _ _ _ hstop]
      rw [future_stop (adjN g) r dist _ _ _ hstop]
  | case4 m dist rest visited seen hmem hgo ns ih =>
    intro d A B hshape hA hB
    have hns_def : ns = (allNeighbors g m).filter
        (fun n => n ∉ m :: visited) := rfl
    have hns : ns.toFinset = adjN g m \ insert m visited.toFinset := by
      rw [hns_def]
      exact filter_not_visited_toFinset (allNeighbors g m) m visited
    have hstep : bfsLoop g r ((m, dist) :: rest) visited seen =
        bfsLoop g r (rest ++ ns.map (fun n => (n, dist + 1)))
          (m :: visited) (seen ++ ns) := by
      rw [bfsLoop, if_neg hmem, if_neg hgo]
    rcases A with _ | ⟨a, A'⟩
    · rcases B with _ | ⟨b, B'⟩
      · simp at hshape
      · simp only [List.map_nil, List.nil_append, List.map_cons,
          List.cons.injEq, Prod.mk.injEq] at hshape
        obtain ⟨⟨hmb, hdd⟩, hrest⟩ := hshape
        subst hmb
        subst hdd
        have hlt : d + 1 < r := by omega
        have hmseen : m ∈ seen.toFinset :=
          List.mem_toFinset.mpr (hB m (by simp))
        rw [hstep, ih (d + 1) B' ns (by rw [hrest])
          (fun x hx => by simp [hB x (by simp [hx])])
          (fun x hx => by simp [hx])]
        symm
        simp only [List.toFinset_nil, List.toFinset_cons,
          List.toFinset_append, hns]
        rw [future_shift]
        calc seen.toFinset ∪ future (adjN g) r (d + 1)
              (insert m B'.toFinset) ∅ visited.toFinset
            = seen.toFinset ∪ (future (adjN g) r (d + 1)
                (insert m B'.toFinset) ∅ visited.toFinset ∪ {m}) :=
              union_absorb_insert _ _ m hmseen
          _ = seen.toFinset ∪ (((adjN g) m \ insert m visited.toFinset) ∪
                future (adjN g) r (d + 1) B'.toFinset
                  (∅ ∪ ((adjN g) m \ insert m visited.toFinset))
                  (insert m visited.toFinset) ∪ {m}) := by
              rw [future_step (adjN g) r (d + 1) m _ _ _ hlt
                (by simpa using hmem)]
          _ = (seen.toFinset ∪ ((adjN g) m \ insert m visited.toFinset)) ∪
              future (adjN g) r (d + 1) B'.toFinset
                (∅ ∪ ((adjN g) m \ insert m visited.toFinset))
                (insert m visited.toFinset) := by
              ext y
              simp only [Finset.mem_union, Finset.mem_singleton]
              constructor
              · rintro (h | (h | h) | h)
                · tauto
                · tauto
                · tauto
                · subst h
                  exact Or.inl (Or.inl hmseen)
              · tauto
          _ = (seen.toFinset ∪ ((adjN g) m \ insert m visited.toFinset)) ∪
              future (adjN g) r (d + 1) B'.toFinset
                ((adjN g) m \ insert m visited.toFinset)
                (insert m visited.toFinset) := by
              rw [Finset.empty_union]
    · simp only [List.map_cons, List.cons_append, List.cons.injEq,
        Prod.mk.injEq] at hshape
      obtain ⟨⟨hma, hdd⟩, hrest⟩ := hshape
      subst hma
      subst hdd
      have hlt : dist < r := by omega
      have hmseen : m ∈ seen.toFinset :=
        List.mem_toFinset.mpr (hA m (by simp))
      rw [hstep, ih dist A' (B ++ ns) (by rw [hrest]; simp)
        (fun x hx => by simp [hA x (by simp [hx])])
        (fun x hx => by
          rcases List.mem_append.mp hx with h | h
          · simp [hB x h]
          · simp [h])]
      symm
      simp only [List.toFinset_cons, List.toFinset_append, hns]
      calc seen.toFinset ∪ future (adjN g) r dist
            (insert m A'.toFinset) B.toFinset visited.toFinset
          = seen.toFinset ∪ (future (adjN g) r dist
              (insert m A'.toFinset) B.toFinset visited.toFinset ∪ {m}) :=
            union_absorb_insert _ _ m hmseen
        _ = seen.toFinset ∪ (((adjN g) m \ insert m visited.toFinset) ∪
              future (adjN g) r dist A'.toFinset
                (B.toFinset ∪ ((adjN g) m \ insert m visited.toFinset))
                (insert m visited.toFinset) ∪ {m}) := by
            rw [future_step (adjN g) r dist m _ _ _ hlt (by simpa using hmem)]
        _ = (seen.toFinset ∪ ((adjN g) m \ insert m visited.toFinset)) ∪
            future (adjN g) r dist A'.toFinset
              (B.toFinset ∪ ((adjN g) m \ insert m visited.toFinset))
              (insert m visited.toFinset) := by
            ext y
            simp only [Finset.mem_union, Finset.mem_singleton]
            constructor
            · rintro (h | (h | h) | h)
              · tauto
              · tauto
              · tauto
              · subst h
                exact Or.inl (Or.inl hmseen)
            · tauto

/-- The BFS loop of `buildModuleNeighborhood`, on a level-structured queue,
returns the module set plus exactly the `futureA` of the state. -/
theorem atlasLoop_eq_futureA (moduleDeps : List Module) (r : Nat) :
    ∀ (queue : List (String × Nat)) (visited moduleSet : List String),
      ∀ (d : Nat) (A B : List String),
        queue = A.map (fun a => (a, d)) ++ B.map (fun b => (b, d + 1)) →
        (atlasLoop moduleDeps r queue visited moduleSet).toFinset =
          moduleSet.toFinset ∪
            futureA (edgeN moduleDeps) r d A.toFinset B.toFinset
              visited.toFinset := by
  intro queue visited moduleSet
  induction queue, visited, moduleSet using atlasLoop.induct moduleDeps r with
  | case1 visited moduleSet =>
    intro d A B hshape
    have hA0 : A = [] := by
      rcases A with _ | ⟨a, A'⟩
      · rfl
      · simp at hshape
    subst hA0
    have hB0 : B = [] := by
      rcases B with _ | ⟨b, B'⟩
      · rfl
      · simp at hshape
    subst hB0
    rw [show atlasLoop moduleDeps r [] visited moduleSet = moduleSet from by
      rw [atlasLoop]]
    simp only [List.toFinset_nil]
    rw [futureA_empty (edgeN moduleDeps) r (r + 1 - d) d le_rfl]
    simp
  | case2 m dist rest visited moduleSet hskip ih =>
    intro d A B hshape
    have hstep : atlasLoop moduleDeps r ((m, dist) :: rest) visited moduleSet =
        atlasLoop moduleDeps r rest visited moduleSet := by
      rw [atlasLoop, if_pos hskip]
    rcases A with _ | ⟨a, A'⟩
    · rcases B with _ | ⟨b, B'⟩
      · simp at hshape
      · simp only [List.map_nil, List.nil_append, List.map_cons,
          List.cons.injEq, Prod.mk.injEq] at hshape
        obtain ⟨⟨hmb, hdd⟩, hrest⟩ := hshape
        subst hmb
        subst hdd
        rw [hstep, ih (d + 1) B' [] (by simpa using hrest)]
        simp only [List.toFinset_nil, List.toFinset_cons]
        rw [futureA_shift]
        rcases hskip with hv | hr
        · have hcongr : futureA (edgeN moduleDeps) r (d + 1)
              (insert m B'.toFinset) ∅ visited.toFinset =
              futureA (edgeN moduleDeps) r (d + 1) B'.toFinset ∅
                visited.toFinset := by
            apply futureA_congr (edgeN moduleDeps) r (r + 1 - (d + 1)) (d + 1)
              le_rfl
            · exact insert_sdiff_mem_congr m _ _ (List.mem_toFinset.mpr hv)
            · rfl
          rw [hcongr]
        · rw [futureA_stop (edgeN moduleDeps) r (d + 1) _ _ _ hr]
          rw [futureA_stop (edgeN moduleDeps) r (d + 1) _ _ _ hr]
    · simp only [List.map_cons, List.cons_append, List.cons.injEq,
        Prod.mk.injEq] at hshape
      obtain ⟨⟨hma, hdd⟩, hrest⟩ := hshape
      subst hma
      subst hdd
      rw [hstep, ih dist A' B hrest]
      simp only [List.toFinset_cons]
      rcases hskip with hv | hr
      · have hcongr : futureA (edgeN moduleDeps) r dist
            (insert m A'.toFinset) B.toFinset visited.toFinset =
            futureA (edgeN moduleDeps) r dist A'.toFinset B.toFinset
              visited.toFinset := by
          apply futureA_congr (edgeN moduleDeps) r (r + 1 - dist) dist le_rfl
          · exact insert_sdiff_mem_congr m _ _ (List.mem_toFinset.mpr hv)
          · rfl
        rw [hcongr]
      · rw [futureA_stop (edgeN moduleDeps) r dist _ _ _ hr]
        rw [futureA_stop (edgeN moduleDeps) r dist _ _ _ hr]
  | case3 m dist rest visited moduleSet hskip nexts ih =>
    intro d A B hshape
    have hmem : m ∉ visited := fun hv => hskip (Or.inl hv)
    have hdle : dist ≤ r := by
      by_contra hgt
      exact hskip (Or.inr (by omega))
    have hns_def : nexts = (connectedNext moduleDeps m).filter
        (fun n => n ∉ m :: visited) := rfl
    have hns : nexts.toFinset =
        edgeN moduleDeps m \ insert m visited.toFinset := by
      rw [hns_def]
      exact filter_not_visited_toFinset (connectedNext moduleDeps m) m visited
    have hstep : atlasLoop moduleDeps r ((m, dist) :: rest) visited moduleSet =
        atlasLoop moduleDeps r (rest ++ nexts.map (fun n => (n, dist + 1)))
          (m :: visited) (moduleSet ++ [m]) := by
      rw [atlasLoop, if_neg hskip]
    rcases A with _ | ⟨a, A'⟩
    · rcases B with _ | ⟨b, B'⟩
      · simp at hshape
      · simp only [List.map_nil, List.nil_append, List.map_cons,
          List.cons.injEq, Prod.mk.injEq] at hshape
        obtain ⟨⟨hmb, hdd⟩, hrest⟩ := hshape
        subst hmb
        subst hdd
        rw [hstep, ih (d + 1) B' nexts (by rw [hrest])]
        symm
        simp only [List.toFinset_nil, List.toFinset_cons,
          List.toFinset_append, hns]
        rw [futureA_shift]
        rw [futureA_step (edgeN moduleDeps) r (d + 1) m _ _ _ hdle
          (by simpa using hmem)]
        ext y
        simp only [Finset.mem_union, Finset.mem_singleton, Finset.mem_insert,
          List.mem_toFinset, List.mem_cons, List.not_mem_nil, or_false,
          Finset.empty_union]
        tauto
    · simp only [List.map_cons, List.cons_append, List.cons.injEq,
        Prod.mk.injEq] at hshape
      obtain ⟨⟨hma, hdd⟩, hrest⟩ := hshape
      subst hma
      subst hdd
      rw [hstep, ih dist A' (B ++ nexts) (by rw [hrest]; simp)]
      symm
      simp only [List.toFinset_cons, List.toFinset_append, hns]
      rw [futureA_step (edgeN moduleDeps) r dist m _ _ _ hdle
        (by simpa using hmem)]
      ext y
      simp only [Finset.mem_union, Finset.mem_singleton, Finset.mem_insert,
        List.mem_toFinset, List.mem_cons, List.not_mem_nil, or_false]
      tauto

/-- The frontier step: expanding the unvisited queue nodes of level `d`
extends the ball by one. -/
theorem ball_succ_frontier (N : String → Finset String) (seeds : List String)
    (d : Nat) (FA V : Finset String) (hVF : V ∪ FA = ball N seeds d)
    (hNV : nbhd N V ⊆ ball N seeds d) :
    ball N seeds (d + 1) = ball N seeds d ∪ (nbhd N (FA \ V) \ V) := by
  have hVb : ∀ x ∈ V, x ∈ ball N seeds d := by
    intro x hx
    rw [← hVF]
    exact Finset.mem_union_left _ hx
  have hb : ∀ x ∈ ball N seeds d, x ∈ V ∨ x ∈ FA := by
    intro x hx
    rw [← hVF] at hx
    exact Finset.mem_union.mp hx
  have hFAb : ∀ x ∈ FA, x ∈ ball N seeds d := by
    intro x hx
    rw [← hVF]
    exact Finset.mem_union_right _ hx
  ext x
  rw [show ball N seeds (d + 1) =
    ball N seeds d ∪ nbhd N (ball N seeds d) from rfl]
  simp only [Finset.mem_union, Finset.mem_sdiff]
  constructor
  · rintro (hx | hx)
    · exact Or.inl hx
    · obtain ⟨y, hy, hxy⟩ := (mem_nbhd N _ x).mp hx
      rcases hb y hy with hyV | hyFA
      · exact Or.inl (hNV ((mem_nbhd N _ x).mpr ⟨y, hyV, hxy⟩))
      · by_cases hyV : y ∈ V
        · exact Or.inl (hNV ((mem_nbhd N _ x).mpr ⟨y, hyV, hxy⟩))
        · by_cases hxV : x ∈ V
          · exact Or.inl (hVb x hxV)
          · exact Or.inr ⟨(mem_nbhd N _ x).mpr
              ⟨y, Finset.mem_sdiff.mpr ⟨hyFA, hyV⟩, hxy⟩, hxV⟩
  · rintro (hx | ⟨hx, _⟩)
    · exact Or.inl hx
    · refine Or.inr ?_
      refine nbhd_mono N ?_ hx
      intro y hy
      exact hFAb y (Finset.mem_sdiff.mp hy).1

/-- The `future` of a clean level state covers exactly the rest of the
radius-`r` ball. -/
theorem future_ball (N : String → Finset String) (seeds : List String)
    (r : Nat) :
    ∀ (k d : Nat) (FA V : Finset String), d + k = r →
      V ∪ FA = ball N seeds d → nbhd N V ⊆ ball N seeds d →
      V ∪ FA ∪ future N r d FA ∅ V = ball N seeds r := by
  intro k
  induction k with
  | zero =>
    intro d FA V hk hVF hNV
    rw [future_stop N r d _ _ _ (by omega), Finset.union_empty, hVF]
    rw [show d = r from by omega]
  | succ k ih =>
    intro d FA V hk hVF hNV
    have hd : ¬ r ≤ d := by omega
    rw [future, if_neg hd, Finset.empty_union]
    have hfr := ball_succ_frontier N seeds d FA V hVF hNV
    have hV' : (V ∪ (FA \ V)) ∪ (nbhd N (FA \ V) \ V) =
        ball N seeds (d + 1) := by
      rw [Finset.union_sdiff_self_eq_union, hVF, ← hfr]
    have hNV' : nbhd N (V ∪ (FA \ V)) ⊆ ball N seeds (d + 1) := by
      have : V ∪ (FA \ V) = ball N seeds d := by
        rw [Finset.union_sdiff_self_eq_union, hVF]
      rw [this]
      intro x hx
      rw [show ball N seeds (d + 1) =
        ball N seeds d ∪ nbhd N (ball N seeds d) from rfl]
      exact Finset.mem_union_right _ hx
    have := ih (d + 1) (nbhd N (FA \ V) \ V) (V ∪ (FA \ V)) (by omega)
      hV' hNV'
    rw [← this]
    ext y
    simp only [Finset.mem_union, Finset.mem_sdiff]
    tauto

/-- The `futureA` of a clean level state covers exactly the rest of the
radius-`r` ball (together with the current visited set). -/
theorem futureA_ball (N : String → Finset String) (seeds : List String)
    (r : Nat) :
    ∀ (k d : Nat) (FA V : Finset String), d + k = r →
      V ∪ FA = ball N seeds d → nbhd N V ⊆ ball N seeds d →
      V ∪ futureA N r d FA ∅ V = ball N seeds r := by
  intro k
  induction k with
  | zero =>
    intro d FA V hk hVF hNV
    have hd : ¬ r < d := by omega
    rw [futureA, if_neg hd,
      futureA_stop N r (d + 1) _ _ _ (by omega), Finset.union_empty]
    have hdr : d = r := by omega
    subst hdr
    rw [← hVF]
    ext y
    simp only [Finset.mem_union, Finset.mem_sdiff]
    tauto
  | succ k ih =>
    intro d FA V hk hVF hNV
    have hd : ¬ r < d := by omega
    rw [futureA, if_neg hd, Finset.empty_union]
    have hfr := ball_succ_frontier N seeds d FA V hVF hNV
    have hVeq : V ∪ (FA \ V) = ball N seeds d := by
      rw [Finset.union_sdiff_self_eq_union, hVF]
    have hV' : (V ∪ (FA \ V)) ∪ (nbhd N (FA \ V) \ V) =
        ball N seeds (d + 1) := by
      rw [hVeq, ← hfr]
    have hNV' : nbhd N (V ∪ (FA \ V)) ⊆ ball N seeds (d + 1) := by
      rw [hVeq]
      intro x hx
      rw [show ball N seeds (d + 1) =
        ball N seeds d ∪ nbhd N (ball N seeds d) from rfl]
      exact Finset.mem_union_right _ hx
    have := ih (d + 1) (nbhd N (FA \ V) \ V) (V ∪ (FA \ V)) (by omega)
      hV' hNV'
    rw [← this]
    ext y
    simp only [Finset.mem_union, Finset.mem_sdiff]
    tauto

theorem reachIn_self (N : String → Finset String) :
    ∀ (n : Nat) (a : String), reachIn N n a a := by
  intro n a
  cases n with
  | zero => rfl
  | succ n => exact Or.inl rfl

theorem reachIn_succ_of (N : String → Finset String) :
    ∀ (n : Nat) (a b : String), reachIn N n a b → reachIn N (n + 1) a b := by
  intro n
  induction n with
  | zero =>
    intro a b h
    exact Or.inl h
  | succ n ih =>
    intro a b h
    rcases h with h | ⟨x, hx, hr⟩
    · exact Or.inl h
    · exact Or.inr ⟨x, hx, ih x b hr⟩

theorem reachIn_snoc (N : String → Finset String) :
    ∀ (n : Nat) (a b c : String), reachIn N n a b → c ∈ N b →
      reachIn N (n + 1) a c := by
  intro n
  induction n with
  | zero =>
    intro a b c hab hc
    cases hab
    exact Or.inr ⟨c, hc, rfl⟩
  | succ n ih =>
    intro a b c hab hc
    rcases hab with hab | ⟨x, hx, hr⟩
    · subst hab
      exact Or.inr ⟨c, hc, reachIn_self N (n + 1) c⟩
    · exact Or.inr ⟨x, hx, ih x b c hr hc⟩

theorem ball_le (N : String → Finset String) (seeds : List String) :
    ∀ (d d' : Nat), d ≤ d' → ball N seeds d ⊆ ball N seeds d' := by
  intro d d' h
  induction d' with
  | zero =>
    have : d = 0 := by omega
    subst this
    exact subset_rfl
  | succ d' ih =>
    by_cases hd : d = d' + 1
    · subst hd
      exact subset_rfl
    · have : d ≤ d' := by omega
      intro x hx
      rw [show ball N seeds (d' + 1) =
        ball N seeds d' ∪ nbhd N (ball N seeds d') from rfl]
      exact Finset.mem_union_left _ (ih this hx)

theorem ball_of_reachIn (N : String → Finset String) (seeds : List String) :
    ∀ (k : Nat) (a m : String) (d : Nat), reachIn N k a m →
      a ∈ ball N seeds d → m ∈ ball N seeds (d + k) := by
  intro k
  induction k with
  | zero =>
    intro a m d h ha
    cases h
    exact ha
  | succ k ih =>
    intro a m d h ha
    rcases h with h | ⟨x, hx, hr⟩
    · subst h
      exact ball_le N seeds d (d + (k + 1)) (by omega) ha
    · have hx1 : x ∈ ball N seeds (d + 1) := by
        rw [show ball N seeds (d + 1) =
          ball N seeds d ∪ nbhd N (ball N seeds d) from rfl]
        exact Finset.mem_union_right _ ((mem_nbhd N _ x).mpr ⟨a, ha, hx⟩)
      have := ih x m (d + 1) hr hx1
      rw [show d + 1 + k = d + (k + 1) from by omega] at this
      exact this

theorem reachIn_of_ball (N : String → Finset String) (seeds : List String) :
    ∀ (r : Nat) (m : String), m ∈ ball N seeds r →
      ∃ s ∈ seeds, reachIn N r s m := by
  intro r
  induction r with
  | zero =>
    intro m hm
    exact ⟨m, by simpa [ball] using hm, rfl⟩
  | succ r ih =>
    intro m hm
    rw [show ball N seeds (r + 1) =
      ball N seeds r ∪ nbhd N (ball N seeds r) from rfl] at hm
    rcases Finset.mem_union.mp hm with hm | hm
    · obtain ⟨s, hs, hr⟩ := ih m hm
      exact ⟨s, hs, reachIn_succ_of N r s m hr⟩
    · obtain ⟨y, hy, hxy⟩ := (mem_nbhd N _ m).mp hm
      obtain ⟨s, hs, hr⟩ := ih y hy
      exact ⟨s, hs, reachIn_snoc N r s y m hr hxy⟩

/-- Ball membership is exactly "BFS distance from some seed is ≤ r". -/
theorem ball_iff_reachIn (N : String → Finset String) (seeds : List String)
    (r : Nat) (m : String) :
    m ∈ ball N seeds r ↔ ∃ s ∈ seeds, reachIn N r s m := by
  constructor
  · exact reachIn_of_ball N seeds r m
  · rintro ⟨s, hs, hr⟩
    have h0 : s ∈ ball N seeds 0 := by simpa [ball] using hs
    have := ball_of_reachIn N seeds r s m 0 hr h0
    simpa using this

/-- The set of module ids returned by `extractNeighborhood` is exactly the
radius-`foldRadius` BFS ball of the seeds. -/
theorem extractNeighborhood_mem_ball (seedModules : List String)
    (g : AdjacencyGraph) (policy : PolicyModules) (foldRadius : Nat)
    (m : String) :
    m ∈ neighborhoodIds (extractNeighborhood seedModules g policy foldRadius)
      ↔ m ∈ ball (adjN g) seedModules foldRadius := by
  have hids : neighborhoodIds (extractNeighborhood seedModules g policy
      foldRadius) = ((bfsLoop g foldRadius
        (seedModules.map (fun s => (s, 0))) [] seedModules).dedup.insertionSort
        (fun a b => a ≤ b)) := by
    simp only [neighborhoodIds, extractNeighborhood, List.map_map]
    rw [show ((fun m => m.id) ∘ fun p : Nat × String =>
      getModuleMetadata p.2 policy p.1 _) = fun p : Nat × String => p.2 from
      by funext p; rfl]
    exact List.enum_map_snd _
  rw [hids]
  have hperm : ∀ x : String, x ∈ ((bfsLoop g foldRadius
      (seedModules.map (fun s => (s, 0))) [] seedModules).dedup.insertionSort
        (fun a b => a ≤ b)) ↔
      x ∈ bfsLoop g foldRadius (seedModules.map (fun s => (s, 0))) []
        seedModules := by
    intro x
    rw [(List.perm_insertionSort (fun a b => a ≤ b) _).mem_iff, List.mem_dedup]
  rw [hperm]
  have hloop := bfsLoop_eq_future g foldRadius
    (seedModules.map (fun s => (s, 0))) [] seedModules 0 seedModules []
    (by simp) (fun x hx => hx) (by simp)
  have hball := future_ball (adjN g) seedModules foldRadius foldRadius 0
    seedModules.toFinset ∅ (by omega) (by simp [ball]) (by simp [nbhd])
  rw [← List.mem_toFinset, hloop]
  simp only [List.toFinset_nil, Finset.empty_union] at hball ⊢
  rw [hball]

/-- The set of module ids returned by `buildModuleNeighborhood` is exactly
the radius-`radius` BFS ball of the seeds. -/
theorem buildModuleNeighborhood_mem_ball (seedModules : List String)
    (moduleDeps : List Module) (radius : Nat) (m : String) :
    m ∈ buildModuleNeighborhood seedModules moduleDeps radius ↔
      m ∈ ball (edgeN moduleDeps) seedModules radius := by
  have hloop := atlasLoop_eq_futureA moduleDeps radius
    (seedModules.map (fun id => (id, 0))) [] seedModules 0 seedModules []
    (by simp)
  have hball := futureA_ball (edgeN moduleDeps) seedModules radius radius 0
    seedModules.toFinset ∅ (by omega) (by simp [ball]) (by simp [nbhd])
  rw [show buildModuleNeighborhood seedModules moduleDeps radius =
    atlasLoop moduleDeps radius (seedModules.map (fun id => (id, 0))) []
      seedModules from rfl]
  rw [← List.mem_toFinset, hloop]
  simp only [List.toFinset_nil, Finset.empty_union] at hball ⊢
  rw [hball]
  have hsub : seedModules.toFinset ⊆ ball (edgeN moduleDeps) seedModules
      radius := by
    have := ball_le (edgeN moduleDeps) seedModules 0 radius (by omega)
    simpa [ball] using this
  simp only [Finset.mem_union]
  constructor
  · rintro (h | h)
    · exact hsub (List.mem_toFinset.mpr (by simpa using h))
    · exact h
  · intro h
    exact Or.inr h

theorem setAdd_mem (s : List String) (x n : String) :
    n ∈ setAdd s x ↔ n ∈ s ∨ n = x := by
  unfold setAdd
  by_cases h : x ∈ s
  · simp only [if_pos h, List.mem_append]
    constructor
    · tauto
    · rintro (hn | hn)
      · exact hn
      · subst hn
        exact h
  · simp [if_neg h]

theorem mapHas_mapSet_self {β : Type} (M : List (String × β)) (k : String)
    (v : β) : mapHas (mapSet M k v) k = true := by
  simp [mapHas, mapGet_mapSet_self]

/-- Membership after the "ensure key, add the value to its set, ensure the
other key" update sequence that `buildAdjacencyGraph` performs on each of its
two maps. -/
theorem out_update_mem (O o1 o2 o3 : List (String × List String))
    (f t m n : String)
    (h1 : o1 = if mapHas O f then O else mapSet O f [])
    (h2 : o2 = mapSet o1 f (setAdd ((mapGet o1 f).getD []) t))
    (h3 : o3 = if mapHas o2 t then o2 else mapSet o2 t []) :
    n ∈ (mapGet o3 m).getD [] ↔
      n ∈ (mapGet O m).getD [] ∨ (f = m ∧ t = n) := by
  have hGet1self : (mapGet o1 f).getD [] = (mapGet O f).getD [] := by
    rw [h1]
    by_cases h : mapHas O f
    · rw [if_pos h]
    · rw [if_neg h, mapGet_mapSet_self]
      simp only [mapHas] at h
      rcases hg : mapGet O f with _ | v
      · simp
      · rw [hg] at h
        simp at h
  have hGet1ne : ∀ k, k ≠ f → mapGet o1 k = mapGet O k := by
    intro k hk
    rw [h1]
    by_cases h : mapHas O f
    · rw [if_pos h]
    · rw [if_neg h, mapGet_mapSet_ne _ _ _ _ (Ne.symm hk)]
  have hGet2self : mapGet o2 f = some (setAdd ((mapGet O f).getD []) t) := by
    rw [h2, mapGet_mapSet_self, hGet1self]
  have hGet2ne : ∀ k, k ≠ f → mapGet o2 k = mapGet O k := by
    intro k hk
    rw [h2, mapGet_mapSet_ne _ _ _ _ (Ne.symm hk), hGet1ne k hk]
  by_cases hmf : m = f
  · subst hmf
    have hget3 : mapGet o3 m = mapGet o2 m := by
      rw [h3]
      by_cases ht : mapHas o2 t
      · rw [if_pos ht]
      · rw [if_neg ht]
        have htm : t ≠ m := by
          intro hc
          subst hc
          rw [h2, mapHas_mapSet_self] at ht
          exact ht rfl
        rw [mapGet_mapSet_ne _ _ _ _ htm]
    rw [hget3, hGet2self, Option.getD_some, setAdd_mem]
    constructor
    · rintro (h | h)
      · exact Or.inl h
      · exact Or.inr ⟨rfl, h.symm⟩
    · rintro (h | ⟨_, h⟩)
      · exact Or.inl h
      · exact Or.inr h.symm
  · have hfalse : ¬ (f = m ∧ t = n) := fun ⟨hc, _⟩ => hmf hc.symm
    by_cases hmt : m = t
    · subst hmt
      rw [h3]
      by_cases ht : mapHas o2 m
      · rw [if_pos ht, hGet2ne m hmf]
        simp [hfalse]
      · rw [if_neg ht, mapGet_mapSet_self, Option.getD_some]
        have : mapGet O m = none := by
          rw [← hGet2ne m hmf]
          simp only [mapHas] at ht
          rcases hg : mapGet o2 m with _ | v
          · rfl
          · rw [hg] at ht
            simp at ht
        rw [this]
        simp [hfalse]
    · have hget3 : mapGet o3 m = mapGet o2 m := by
        rw [h3]
        by_cases ht : mapHas o2 t
        · rw [if_pos ht]
        · rw [if_neg ht, mapGet_mapSet_ne _ _ _ _ (fun hc => hmt hc.symm)]
      rw [hget3, hGet2ne m hmf]
      simp [hfalse]

theorem addModuleEdge_out_mem (g : AdjacencyGraph) (e : Module)
    (m n : String) :
    n ∈ (mapGet (addModuleEdge g e).outgoing m).getD [] ↔
      n ∈ (mapGet g.outgoing m).getD [] ∨ (e.from_ = m ∧ e.to_ = n) :=
  out_update_mem g.outgoing _ _ ((addModuleEdge g e).outgoing)
    e.from_ e.to_ m n rfl rfl rfl

theorem addModuleEdge_in_mem (g : AdjacencyGraph) (e : Module)
    (m n : String) :
    n ∈ (mapGet (addModuleEdge g e).incoming m).getD [] ↔
      n ∈ (mapGet g.incoming m).getD [] ∨ (e.to_ = m ∧ e.from_ = n) :=
  out_update_mem g.incoming _ _ ((addModuleEdge g e).incoming)
    e.to_ e.from_ m n rfl rfl rfl

theorem foldl_out_mem (l : List Module) :
    ∀ (g : AdjacencyGraph) (m n : String),
      n ∈ (mapGet (l.foldl addModuleEdge g).outgoing m).getD [] ↔
        n ∈ (mapGet g.outgoing m).getD [] ∨
          ∃ e ∈ l, e.from_ = m ∧ e.to_ = n := by
  induction l with
  | nil =>
    intro g m n
    simp
  | cons e rest ih =>
    intro g m n
    rw [List.foldl_cons, ih (addModuleEdge g e) m n, addModuleEdge_out_mem]
    simp only [List.mem_cons]
    constructor
    · rintro ((h | h) | ⟨e', he', hp⟩)
      · exact Or.inl h
      · exact Or.inr ⟨e, Or.inl rfl, h⟩
      · exact Or.inr ⟨e', Or.inr he', hp⟩
    · rintro (h | ⟨e', (he' | he'), hp⟩)
      · exact Or.inl (Or.inl h)
      · subst he'
        exact Or.inl (Or.inr hp)
      · exact Or.inr ⟨e', he', hp⟩

theorem foldl_in_mem (l : List Module) :
    ∀ (g : AdjacencyGraph) (m n : String),
      n ∈ (mapGet (l.foldl addModuleEdge g).incoming m).getD [] ↔
        n ∈ (mapGet g.incoming m).getD [] ∨
          ∃ e ∈ l, e.to_ = m ∧ e.from_ = n := by
  induction l with
  | nil =>
    intro g m n
    simp
  | cons e rest ih =>
    intro g m n
    rw [List.foldl_cons, ih (addModuleEdge g e) m n, addModuleEdge_in_mem]
    simp only [List.mem_cons]
    constructor
    · rintro ((h | h) | ⟨e', he', hp⟩)
      · exact Or.inl h
      · exact Or.inr ⟨e, Or.inl rfl, h⟩
      · exact Or.inr ⟨e', Or.inr he', hp⟩
    · rintro (h | ⟨e', (he' | he'), hp⟩)
      · exact Or.inl (Or.inl h)
      · subst he'
        exact Or.inl (Or.inr hp)
      · exact Or.inr ⟨e', he', hp⟩

theorem connectedNext_mem (moduleDeps : List Module) (m n : String) :
    n ∈ connectedNext moduleDeps m ↔
      ∃ e ∈ moduleDeps, (e.from_ = m ∨ e.to_ = m) ∧
        n = (if e.from_ = m then e.to_ else e.from_) := by
  simp only [connectedNext, List.mem_map, List.mem_filter,
    Bool.or_eq_true, decide_eq_true_eq]
  constructor
  · rintro ⟨e, ⟨he, hor⟩, hval⟩
    exact ⟨e, he, hor, hval.symm⟩
  · rintro ⟨e, he, hor, hval⟩
    exact ⟨e, ⟨he, hor⟩, hval.symm⟩

/-- The neighbor function `extractNeighborhood` reads off the built adjacency
graph agrees with the neighbor function `buildModuleNeighborhood` computes by
scanning the flat edge list. -/
theorem adjN_buildAdjacencyGraph (edges : List Module) (m : String) :
    adjN (buildAdjacencyGraph edges) m = edgeN edges m := by
  ext n
  simp only [adjN, edgeN, List.mem_toFinset]
  rw [show allNeighbors (buildAdjacencyGraph edges) m =
    ((mapGet (buildAdjacencyGraph edges).outgoing m).getD [] ++
      (mapGet (buildAdjacencyGraph edges).incoming m).getD []).dedup from rfl]
  rw [List.mem_dedup, List.mem_append]
  unfold buildAdjacencyGraph
  rw [foldl_out_mem, foldl_in_mem, connectedNext_mem]
  simp only [mapGet, Option.getD_none, List.not_mem_nil, false_or]
  constructor
  · rintro (⟨e, he, hf, ht⟩ | ⟨e, he, ht, hf⟩)
    · exact ⟨e, he, Or.inl hf, by simp [hf, ht]⟩
    · refine ⟨e, he, Or.inr ht, ?_⟩
      by_cases hfm : e.from_ = m
      · rw [if_pos hfm]
        rw [hfm] at hf
        exact (ht.trans hf).symm
      · rw [if_neg hfm, hf]
  · rintro ⟨e, he, hor, hval⟩
    by_cases hfm : e.from_ = m
    · rw [if_pos hfm] at hval
      exact Or.inl ⟨e, he, hfm, hval.symm⟩
    · rw [if_neg hfm] at hval
      rcases hor with hor | hor
      · exact absurd hor hfm
      · exact Or.inr ⟨e, he, hor, hval.symm⟩

theorem ball_congr (N N' : String → Finset String) (seeds : List String)
    (h : ∀ m, N m = N' m) :
    ∀ (n : Nat), ball N seeds n = ball N' seeds n := by
  have hN : N = N' := funext h
  subst hN
  intro n
  rfl

/-- The 3-node cycle A→B→C→A used as the concrete termination instance. -/
def cycleGraph : AdjacencyGraph :=
  buildAdjacencyGraph
    [{ from_ := "A", to_ := "B", weight := 1 },
     { from_ := "B", to_ := "C", weight := 1 },
     { from_ := "C", to_ := "A", weight := 1 }]

/-- C6: `extractNeighborhood` returns exactly the modules whose undirected
BFS distance (outgoing and incoming neighbors both expanded) from some seed
is at most the radius; radius 0 yields exactly the seed set for every graph;
and on the 3-node cycle A→B→C→A, seeds `["A"]` with radius 2 return exactly
`{A, B, C}` — the traversal terminates on the cyclic graph (`bfsLoop` is a
total function). -/
theorem extractNeighborhood_is_bfs_ball (g : AdjacencyGraph)
    (policy : PolicyModules) (seeds : List String) (r : Nat) (m : String) :
    (m ∈ neighborhoodIds (extractNeighborhood seeds g policy r) ↔
       ∃ s ∈ seeds, reachIn (adjN g) r s m) ∧
    (m ∈ neighborhoodIds (extractNeighborhood seeds g policy 0) ↔
       m ∈ seeds) ∧
    (m ∈ neighborhoodIds (extractNeighborhood ["A"] cycleGraph policy 2) ↔
       m ∈ (["A", "B", "C"] : List String)) := by
  refine ⟨?_, ?_, ?_⟩
  · rw [extractNeighborhood_mem_ball, ball_iff_reachIn]
  · rw [extractNeighborhood_mem_ball]
    simp [ball]
  · rw [extractNeighborhood_mem_ball]
    have hball : ball (adjN cycleGraph) ["A"] 2 =
        ({"A", "B", "C"} : Finset String) := by decide
    rw [hball]
    simp

/-- C10: the two neighborhood-BFS implementations agree — for every edge
list, seed list, radius and policy, `buildModuleNeighborhood` (which scans
the flat edge list) returns exactly the module ids that
`extractNeighborhood` (which walks the prebuilt adjacency graph) returns. -/
theorem buildModuleNeighborhood_eq_extractNeighborhood (edges : List Module)
    (seeds : List String) (policy : PolicyModules) (r : Nat) (m : String) :
    m ∈ buildModuleNeighborhood seeds edges r ↔
      m ∈ neighborhoodIds
        (extractNeighborhood seeds (buildAdjacencyGraph edges) policy r) := by
  rw [buildModuleNeighborhood_mem_ball, extractNeighborhood_mem_ball,
    ball_congr (adjN (buildAdjacencyGraph edges)) (edgeN edges) seeds
      (adjN_buildAdjacencyGraph edges) r]

/-! ## Policy conformance checker

The repository ships only placeholders for this component (`queryViolations`
returns an empty list, and the MCP `policy_check` handler scans change text
for a fixed substring), so the edge checker below is built from the
specification's description rather than from source code. -/

/-- Modelled from the spec: the two kinds of module-edge violation,
`forbidden_edge` and `disallowed_edge`. -/
inductive ViolationKind where
  | forbidden_edge
  | disallowed_edge
deriving DecidableEq

/-- Modelled from the spec: a violation referencing the offending module
edge `(from, to)`. -/
structure Violation where
  kind : ViolationKind
  from_ : String
  to_ : String
deriving DecidableEq

/-- Modelled from the spec: violations emitted for one observed module edge
`(A, B)` — a `forbidden_edge` when `B`'s `forbidden_callers` contains `A`;
a `disallowed_edge` when `B` declares a non-empty `allowed_callers` list not
containing `A`; an empty or absent allow-list imposes no restriction. -/
def edgeViolations (policy : PolicyModules) (e : Module) : List Violation :=
  let p := (mapGet policy e.to_).getD {}
  (if e.from_ ∈ p.forbidden_callers then
    [{ kind := ViolationKind.forbidden_edge, from_ := e.from_, to_ := e.to_ }]
  else []) ++
  (if p.allowed_callers = [] then []
   else if e.from_ ∈ p.allowed_callers then []
   else [{ kind := ViolationKind.disallowed_edge, from_ := e.from_,
           to_ := e.to_ }])

/-- Modelled from the spec: `check(graph, policy)` evaluates every module
edge observed in the graph and concatenates the per-edge violations. -/
def checkPolicy (g : CodeGraph) (policy : PolicyModules) : List Violation :=
  g.modules.flatMap (edgeViolations policy)

/-- The spec's enforcement example policy: module `X` with
`forbidden_callers = ["Y"]`. -/
def xPolicy : PolicyModules :=
  [("X", { forbidden_callers := ["Y"] })]

/-- A graph containing exactly the module edge `Y → X`. -/
def yxGraph : CodeGraph :=
  { symbols := [], calls := [],
    modules := [{ from_ := "Y", to_ := "X", weight := 1 }] }

/-- A graph containing exactly the module edge `Z → X` (`Z` unlisted). -/
def zxGraph : CodeGraph :=
  { symbols := [], calls := [],
    modules := [{ from_ := "Z", to_ := "X", weight := 1 }] }

/-- C2: for every observed module edge `(A, B)`, the checker emits exactly
one `forbidden_edge` violation referencing `(A, B)` precisely when `B`'s
`forbidden_callers` contains `A`, and exactly one `disallowed_edge`
violation precisely when `B`'s `allowed_callers` is non-empty and omits `A`
(an empty or absent allow-list emits none); on the spec's example policy
(`X` with `forbidden_callers = ["Y"]`), the edge `Y → X` yields exactly one
`forbidden_edge` violation referencing `(Y, X)` and the edge `Z → X` yields
zero violations. -/
theorem policy_check_edge_rules (policy : PolicyModules) (e : Module) :
    ((edgeViolations policy e).filter
        (fun v => v.kind == ViolationKind.forbidden_edge) =
      if e.from_ ∈ ((mapGet policy e.to_).getD {}).forbidden_callers then
        [{ kind := ViolationKind.forbidden_edge, from_ := e.from_,
           to_ := e.to_ }]
      else []) ∧
    ((edgeViolations policy e).filter
        (fun v => v.kind == ViolationKind.disallowed_edge) =
      if ((mapGet policy e.to_).getD {}).allowed_callers = [] then []
      else if e.from_ ∈ ((mapGet policy e.to_).getD {}).allowed_callers then
        []
      else
        [{ kind := ViolationKind.disallowed_edge, from_ := e.from_,
           to_ := e.to_ }]) ∧
    (checkPolicy yxGraph xPolicy =
      [{ kind := ViolationKind.forbidden_edge, from_ := "Y", to_ := "X" }]) ∧
    (checkPolicy zxGraph xPolicy = []) := by
  refine ⟨?_, ?_, by decide, by decide⟩
  · by_cases hf : e.from_ ∈ ((mapGet policy e.to_).getD {}).forbidden_callers
    · by_cases ha : ((mapGet policy e.to_).getD {}).allowed_callers = []
      · simp [edgeViolations, hf, ha]
      · by_cases hm : e.from_ ∈ ((mapGet policy e.to_).getD {}).allowed_callers
        · simp [edgeViolations, hf, ha, hm]
        · simp [edgeViolations, hf, ha, hm]
    · by_cases ha : ((mapGet policy e.to_).getD {}).allowed_callers = []
      · simp [edgeViolations, hf, ha]
      · by_cases hm : e.from_ ∈ ((mapGet policy e.to_).getD {}).allowed_callers
        · simp [edgeViolations, hf, ha, hm]
        · simp [edgeViolations, hf, ha, hm]
  · by_cases hf : e.from_ ∈ ((mapGet policy e.to_).getD {}).forbidden_callers
    · by_cases ha : ((mapGet policy e.to_).getD {}).allowed_callers = []
      · simp [edgeViolations, hf, ha]
      · by_cases hm : e.from_ ∈ ((mapGet policy e.to_).getD {}).allowed_callers
        · simp [edgeViolations, hf, ha, hm]
        · simp [edgeViolations, hf, ha, hm]
    · by_cases ha : ((mapGet policy e.to_).getD {}).allowed_callers = []
      · simp [edgeViolations, hf, ha]
      · by_cases hm : e.from_ ∈ ((mapGet policy e.to_).getD {}).allowed_callers
        · simp [edgeViolations, hf, ha, hm]
        · simp [edgeViolations, hf, ha, hm]

end LexMap
